import Mathlib

/-!
Verification development for the rmonkey front end: the AST data model,
the recursive-descent / Pratt parser (`src/parser.rs`), the generic tree
rewriter (`src/ast/modify.rs`), and the built-in function table
(`src/builtins.rs`), shallowly embedded in Lean.

The parser is embedded as a family of functions over the remaining token
list (the Rust `Parser` holds `current_token` plus a peekable iterator;
since `current_token` is `None` exactly when the iterator is exhausted,
the whole state is faithfully represented by a single `List Token` whose
head is the current token and whose second element is the peek token).
Recursion is by explicit fuel; a sufficiency theorem shows the fuel
bound used by the top-level `parse` is never exhausted.
-/

namespace RMonkey

/-! ## Tokens (src/token.rs, plus the variants used by src/parser.rs) -/

/-- Token kinds. `token.rs` lists most variants; `parser.rs` additionally
matches on `LBracket`, `RBracket`, `Colon`, `Quote`, `Unquote` and `Macro`,
so those are included as well. Keyword-named variants carry a `T` suffix
because the bare words are Lean keywords. -/
inductive Token where
  | assign
  | asterisk
  | bang
  | colon
  | comma
  | elseT
  | eq
  | falseT
  | function
  | gt
  | identifier (s : String)
  | ifT
  | illegal (s : String)
  | int (s : String)
  | lbrace
  | lbracket
  | lparen
  | lt
  | letT
  | macroT
  | minus
  | notEq
  | plus
  | quote
  | rbrace
  | rbracket
  | rparen
  | returnT
  | semicolon
  | slash
  | string (s : String)
  | trueT
  | unquote
deriving DecidableEq

/-- Debug rendering of a token, mirroring Rust's derived `Debug` output used
in parser error messages. -/
def Token.debug : Token → String
  | .assign => "Assign"
  | .asterisk => "Asterisk"
  | .bang => "Bang"
  | .colon => "Colon"
  | .comma => "Comma"
  | .elseT => "Else"
  | .eq => "Eq"
  | .falseT => "False"
  | .function => "Function"
  | .gt => "GT"
  | .identifier s => "Identifier(\"" ++ s ++ "\")"
  | .ifT => "If"
  | .illegal s => "Illegal(\"" ++ s ++ "\")"
  | .int s => "Int(\"" ++ s ++ "\")"
  | .lbrace => "LBrace"
  | .lbracket => "LBracket"
  | .lparen => "LParen"
  | .lt => "LT"
  | .letT => "Let"
  | .macroT => "Macro"
  | .minus => "Minus"
  | .notEq => "NotEq"
  | .plus => "Plus"
  | .quote => "Quote"
  | .rbrace => "RBrace"
  | .rbracket => "RBracket"
  | .rparen => "RParen"
  | .returnT => "Return"
  | .semicolon => "Semicolon"
  | .slash => "Slash"
  | .string s => "String(\"" ++ s ++ "\")"
  | .trueT => "True"
  | .unquote => "Unquote"

/-! ## AST data model (the repository's `ast` module; its definitions are not
under `src/`, but their exact shape is fixed by how `parser.rs`,
`ast/modify.rs`, `evaluator.rs` and the tests construct and match them). -/

/-- Identifier wraps a name string (`ast::Identifier(pub String)`). -/
structure Identifier where
  name : String
deriving DecidableEq

/-- Prefix operators `!` and `-`. -/
inductive PrefixOperator where
  | bang
  | minus
deriving DecidableEq

/-- Infix operators. -/
inductive InfixOperator where
  | add
  | sub
  | mul
  | div
  | lt
  | gt
  | eq
  | notEq
deriving DecidableEq

mutual

/-- Statements (`ast::Statement`). -/
inductive Statement where
  | letS (identifier : Identifier) (expression : Expression)
  | returnS (expression : Expression)
  | expression (expression : Expression)
  | block (b : BlockStatement)

/-- Block statements (`ast::BlockStatement`). -/
inductive BlockStatement where
  | mk (statements : List Statement)

/-- Expressions (`ast::Expression`). The `Hash` payload is a `BTreeMap`
in Rust; it is embedded as the map's ascending association list. -/
inductive Expression where
  | identifier (id : Identifier)
  | integer (n : Int)
  | boolean (b : Bool)
  | string (s : String)
  | array (elements : List Expression)
  | hash (pairs : List (Expression × Expression))
  | prefixE (operator : PrefixOperator) (right : Expression)
  | infixE (left : Expression) (operator : InfixOperator) (right : Expression)
  | ifE (condition : Expression) (consequence : BlockStatement)
        (alternative : Option BlockStatement)
  | function (f : FunctionExpression)
  | call (function : CallExpressionFunction) (args : List Expression)
  | index (left : Expression) (idx : Expression)
  | quote (e : Expression)
  | unquote (e : Expression)
  | macroE (m : MacroExpression)

/-- Function literals (`ast::FunctionExpression`). -/
inductive FunctionExpression where
  | mk (params : List Identifier) (body : BlockStatement)

/-- Macro literals (`ast::MacroExpression`). -/
inductive MacroExpression where
  | mk (params : List Identifier) (body : BlockStatement)

/-- Callee of a call expression (`ast::CallExpressionFunction`): an
identifier or a function literal. -/
inductive CallExpressionFunction where
  | identifier (id : Identifier)
  | function (f : FunctionExpression)

end

/-- The parse root (`ast::Program`). -/
structure Program where
  statements : List Statement

/-- Statements of a block. -/
def BlockStatement.statements : BlockStatement → List Statement
  | .mk s => s

/-- Uniform wrapper over the three tree levels (`ast::Node`). -/
inductive Node where
  | program (p : Program)
  | statement (s : Statement)
  | expression (e : Expression)

/-! ## Total order over expressions, for `BTreeMap` keys

The repository's `ast` module derives `Ord` for `Expression` (required by
`BTreeMap<Expression, Expression>`); that module is not under `src/`, so the
order is modelled from the spec ("a total order over `Expression` so
iteration/printing is deterministic"): expressions are serialized to `List
Nat` and compared lexicographically. The claims settled below do not depend
on the specific order, only on it being total and deterministic. -/

/-- Lexicographic comparison of `Nat` lists. -/
def natListCompare : List Nat → List Nat → Ordering
  | [], [] => .eq
  | [], _ :: _ => .lt
  | _ :: _, [] => .gt
  | a :: as, b :: bs =>
    if a < b then .lt else if b < a then .gt else natListCompare as bs

/-- String serialization for the expression order. -/
def strEncode (s : String) : List Nat :=
  s.length :: s.data.map Char.toNat

/-- Integer serialization for the expression order. -/
def intEncode (n : Int) : List Nat :=
  if n < 0 then [0, (-n).toNat] else [1, n.toNat]

mutual

/-- Modelled from the spec: serialization underlying the total order over
`Expression` (standing in for the derived `Ord` of the missing `ast`
module); a preorder walk emitting a variant tag followed by payloads. -/
def exprEncode : Expression → List Nat
  | .identifier id => 0 :: strEncode id.name
  | .integer n => 1 :: intEncode n
  | .boolean b => [2, cond b 1 0]
  | .string s => 3 :: strEncode s
  | .array es => 4 :: es.length :: exprListEncode es
  | .hash ps => 5 :: ps.length :: pairListEncode ps
  | .prefixE op r => 6 :: (match op with | .bang => 0 | .minus => 1) :: exprEncode r
  | .infixE l op r =>
      7 :: (match op with
            | .add => 0 | .sub => 1 | .mul => 2 | .div => 3
            | .lt => 4 | .gt => 5 | .eq => 6 | .notEq => 7)
        :: exprEncode l ++ exprEncode r
  | .ifE c cons alt =>
      8 :: exprEncode c ++ blockEncode cons ++
        (match alt with | none => [0] | some a => 1 :: blockEncode a)
  | .function (.mk params body) =>
      9 :: params.length :: (params.map (fun p => strEncode p.name)).flatten ++ blockEncode body
  | .call f args =>
      10 :: (match f with
             | .identifier id => 0 :: strEncode id.name
             | .function (.mk params body) =>
               1 :: params.length ::
                 (params.map (fun p => strEncode p.name)).flatten ++ blockEncode body)
        ++ args.length :: exprListEncode args
  | .index l i => 11 :: exprEncode l ++ exprEncode i
  | .quote e => 12 :: exprEncode e
  | .unquote e => 13 :: exprEncode e
  | .macroE (.mk params body) =>
      14 :: params.length :: (params.map (fun p => strEncode p.name)).flatten ++ blockEncode body

/-- Serialization of an expression list. -/
def exprListEncode : List Expression → List Nat
  | [] => []
  | e :: rest => exprEncode e ++ exprListEncode rest

/-- Serialization of a key/value pair list. -/
def pairListEncode : List (Expression × Expression) → List Nat
  | [] => []
  | (k, v) :: rest => exprEncode k ++ exprEncode v ++ pairListEncode rest

/-- Serialization of a statement. -/
def stmtEncode : Statement → List Nat
  | .letS id e => 0 :: strEncode id.name ++ exprEncode e
  | .returnS e => 1 :: exprEncode e
  | .expression e => 2 :: exprEncode e
  | .block b => 3 :: blockEncode b

/-- Serialization of a block. -/
def blockEncode : BlockStatement → List Nat
  | .mk stmts => stmts.length :: stmtListEncode stmts

/-- Serialization of a statement list. -/
def stmtListEncode : List Statement → List Nat
  | [] => []
  | s :: rest => stmtEncode s ++ stmtListEncode rest

end

/-- The total order over expressions (derived `Ord` in Rust, modelled via
serialization). -/
def exprCompare (a b : Expression) : Ordering :=
  natListCompare (exprEncode a) (exprEncode b)

/-- `BTreeMap::insert` on the ascending association list: place the new
pair before the first strictly greater key; on an equal key keep the stored
key and replace the value (Rust `BTreeMap` semantics). -/
def hashInsert (k v : Expression) : List (Expression × Expression) →
    List (Expression × Expression)
  | [] => [(k, v)]
  | (k', v') :: rest =>
    match exprCompare k k' with
    | .lt => (k, v) :: (k', v') :: rest
    | .eq => (k', v) :: rest
    | .gt => (k', v') :: hashInsert k v rest

/-! ## Tree rewriter (src/ast/modify.rs) -/

/-- Modelled from the spec: `Node`'s coercion back into an `Expression`
(the `.expression()?` call in `modify_expression`; the method itself lives
in the `ast` module, absent from `src/`). "If the rewritten value cannot be
reinterpreted as an `Expression`, that is a failure of the pass." -/
def Node.expressionCoe : Node → Except String Expression
  | .expression e => .ok e
  | _ => .error "node is not an expression"

mutual

/-- `modify_statement` from src/ast/modify.rs. -/
def modify_statement (modifier : Node → Node) : Statement → Except String Statement
  | .letS identifier expression => do
      let expression ← modify_expression modifier expression
      pure (.letS identifier expression)
  | .returnS e => do
      pure (.returnS (← modify_expression modifier e))
  | .expression e => do
      pure (.expression (← modify_expression modifier e))
  | .block b => do
      pure (.block (← modify_block_statement modifier b))

/-- `modify_block_statement` from src/ast/modify.rs. -/
def modify_block_statement (modifier : Node → Node) :
    BlockStatement → Except String BlockStatement
  | .mk stmts => do
      pure (.mk (← modify_stmt_list modifier stmts))

/-- The statement loop shared by `modify_program` and
`modify_block_statement`: rewrite every statement in order. -/
def modify_stmt_list (modifier : Node → Node) :
    List Statement → Except String (List Statement)
  | [] => pure []
  | s :: rest => do
      let s' ← modify_statement modifier s
      let rest' ← modify_stmt_list modifier rest
      pure (s' :: rest')

/-- `modify_expression` from src/ast/modify.rs. Composite variants with an
explicit case are rebuilt from recursively rewritten parts; every other
variant falls to the final catch-all, which passes the node whole into the
modifier and coerces the result back into an expression. -/
def modify_expression (modifier : Node → Node) : Expression → Except String Expression
  | .array es => do
      pure (.array (← modify_expr_list modifier es))
  | .hash ps => do
      pure (.hash (← modify_hash_pairs modifier [] ps))
  | .prefixE op right => do
      pure (.prefixE op (← modify_expression modifier right))
  | .infixE left op right => do
      let left ← modify_expression modifier left
      let right ← modify_expression modifier right
      pure (.infixE left op right)
  | .ifE c cons alt => do
      let c ← modify_expression modifier c
      let cons ← modify_block_statement modifier cons
      let alt ← match alt with
        | some a => do pure (some (← modify_block_statement modifier a))
        | none => pure none
      pure (.ifE c cons alt)
  | .function (.mk params body) => do
      let body ← modify_block_statement modifier body
      pure (.function (.mk params body))
  | .index left idx => do
      let left ← modify_expression modifier left
      let idx ← modify_expression modifier idx
      pure (.index left idx)
  | other => Node.expressionCoe (modifier (.expression other))

/-- The element loop of the `Array` case. -/
def modify_expr_list (modifier : Node → Node) :
    List Expression → Except String (List Expression)
  | [] => pure []
  | e :: rest => do
      let e' ← modify_expression modifier e
      let rest' ← modify_expr_list modifier rest
      pure (e' :: rest')

/-- The pair loop of the `Hash` case: rewrite each key and value and insert
them into a fresh map, in iteration order. -/
def modify_hash_pairs (modifier : Node → Node)
    (acc : List (Expression × Expression)) :
    List (Expression × Expression) → Except String (List (Expression × Expression))
  | [] => pure acc
  | (k, v) :: rest => do
      let k' ← modify_expression modifier k
      let v' ← modify_expression modifier v
      modify_hash_pairs modifier (hashInsert k' v' acc) rest

end

/-- `modify_program` from src/ast/modify.rs. -/
def modify_program (modifier : Node → Node) (prog : Program) : Except String Program := do
  pure ⟨← modify_stmt_list modifier prog.statements⟩

/-- `modify` from src/ast/modify.rs: the generic entry point over `Node`. -/
def modify (node : Node) (modifier : Node → Node) : Except String Node :=
  match node with
  | .program p => do pure (.program (← modify_program modifier p))
  | .statement s => do pure (.statement (← modify_statement modifier s))
  | .expression e => do pure (.expression (← modify_expression modifier e))

/-- The transform used by the rewriter tests in src/ast/modify.rs: map the
integer leaf `1` to `2`, leave every other node unchanged. -/
def turn_one_into_two : Node → Node
  | .expression (.integer 1) => .expression (.integer 2)
  | node => node

/-! ## Well-formedness: hash literals embedded as association lists must be
sorted with strictly increasing keys, which is the `BTreeMap` invariant every
Rust value of the type enjoys by construction. Variants the rewriter never
recurses into need no constraint. -/

/-- All keys of the list compare strictly greater than `k`. -/
def keyLtAll (k : Expression) : List (Expression × Expression) → Bool
  | [] => true
  | q :: rest => decide (exprCompare k q.1 = .lt) && keyLtAll k rest

/-- Keys are pairwise strictly ascending. -/
def keysPairwise : List (Expression × Expression) → Bool
  | [] => true
  | p :: rest => keyLtAll p.1 rest && keysPairwise rest

mutual

/-- Well-formedness of an expression: every hash list reachable by the
rewriter has pairwise ascending keys. -/
def wf_expr : Expression → Bool
  | .array es => wf_expr_list es
  | .hash ps => keysPairwise ps && wf_pair_list ps
  | .prefixE _ r => wf_expr r
  | .infixE l _ r => wf_expr l && wf_expr r
  | .ifE c cons alt =>
      wf_expr c && wf_block cons &&
        (match alt with | none => true | some a => wf_block a)
  | .function (.mk _ body) => wf_block body
  | .index l i => wf_expr l && wf_expr i
  | _ => true

/-- Well-formedness of an expression list. -/
def wf_expr_list : List Expression → Bool
  | [] => true
  | e :: rest => wf_expr e && wf_expr_list rest

/-- Well-formedness of a pair list. -/
def wf_pair_list : List (Expression × Expression) → Bool
  | [] => true
  | (k, v) :: rest => wf_expr k && wf_expr v && wf_pair_list rest

/-- Well-formedness of a statement. -/
def wf_stmt : Statement → Bool
  | .letS _ e => wf_expr e
  | .returnS e => wf_expr e
  | .expression e => wf_expr e
  | .block b => wf_block b

/-- Well-formedness of a block. -/
def wf_block : BlockStatement → Bool
  | .mk stmts => wf_stmt_list stmts

/-- Well-formedness of a statement list. -/
def wf_stmt_list : List Statement → Bool
  | [] => true
  | s :: rest => wf_stmt s && wf_stmt_list rest

end

/-- Well-formedness of a node. -/
def wf_node : Node → Bool
  | .program p => wf_stmt_list p.statements
  | .statement s => wf_stmt s
  | .expression e => wf_expr e

/-! ## Runtime objects and built-in functions (src/builtins.rs) -/

/-- Modelled from the spec and from usage: the runtime object model (the
`object` module is not under `src/`); only the variants constructed or
matched by src/builtins.rs and src/evaluator.rs are required. -/
inductive Object where
  | null
  | integer (n : Int)
  | boolean (b : Bool)
  | string (s : String)
  | array (elements : List Object)
  | error (msg : String)

mutual

/-- Modelled from the spec: the `Display` rendering of an object (used only
inside the not-supported error message); the exact text is fixed by the
missing `object` module, not by anything under `src/`. -/
def Object.display : Object → String
  | .null => "null"
  | .integer n => toString n
  | .boolean b => cond b "true" "false"
  | .string s => s
  | .array elements =>
      "[" ++ String.intercalate ", " (Object.displayList elements) ++ "]"
  | .error msg => "ERROR: " ++ msg

/-- Display of each object of a list. -/
def Object.displayList : List Object → List String
  | [] => []
  | o :: rest => Object.display o :: Object.displayList rest

end

/-- `new_wrong_number_arguments_error` from src/builtins.rs. -/
def new_wrong_number_arguments_error (n expected : Nat) : Object :=
  .error ("wrong number of arguments. got=" ++ toString n ++ ", want=" ++
    toString expected)

/-- `new_not_supported_error` from src/builtins.rs. -/
def new_not_supported_error (fname : String) (o : Object) : Object :=
  .error ("argument to `" ++ fname ++ "` not supported, got `" ++ o.display ++ "`")

/-- The built-in `len` from src/builtins.rs. Rust's `String::len` counts
UTF-8 bytes. -/
def len : List Object → Object
  | [a] =>
    match a with
    | .string s => .integer s.utf8ByteSize
    | .array elements => .integer elements.length
    | o => new_not_supported_error "len" o
  | args => new_wrong_number_arguments_error args.length 1

/-- The built-in `first` from src/builtins.rs. -/
def first : List Object → Object
  | [a] =>
    match a with
    | .array elements =>
      match elements.head? with
      | some f => f
      | none => .null
    | o => new_not_supported_error "first" o
  | args => new_wrong_number_arguments_error args.length 1

/-- The built-in `last` from src/builtins.rs. -/
def last : List Object → Object
  | [a] =>
    match a with
    | .array elements =>
      match elements.getLast? with
      | some f => f
      | none => .null
    | o => new_not_supported_error "last" o
  | args => new_wrong_number_arguments_error args.length 1

/-- The builtin lookup table (`FUNCTION_MAP` / `get` from src/builtins.rs). -/
def builtins_get (id : Identifier) : Option (List Object → Object) :=
  if id.name = "len" then some len
  else if id.name = "first" then some first
  else if id.name = "last" then some last
  else none

/-! ## Textual rendering (the `Display` impls of the missing `ast` module)

Modelled from the spec (§6 fixes the statement/expression rendering contract
and the fully parenthesized forms) and pinned by the in-repo parser tests:
`tests::display` asserts that the one-statement program built from
`Let{my_var, another_var}` displays as `let my_var = another_var;`, and
`tests::parse_precedence` pins the array, call, index, prefix and infix
forms. Unexercised forms (string/hash/if/function/quote/unquote/macro) are
modelled conservatively and are not relied on by any claim. -/

/-- Rendering of a prefix operator. -/
def PrefixOperator.render : PrefixOperator → String
  | .bang => "!"
  | .minus => "-"

/-- Rendering of an infix operator. -/
def InfixOperator.render : InfixOperator → String
  | .add => "+"
  | .sub => "-"
  | .mul => "*"
  | .div => "/"
  | .lt => "<"
  | .gt => ">"
  | .eq => "=="
  | .notEq => "!="

mutual

/-- Rendering of an expression. -/
def render_expression : Expression → String
  | .identifier id => id.name
  | .integer n => toString n
  | .boolean b => cond b "true" "false"
  | .string s => s
  | .array es => "[" ++ render_comma_list es ++ "]"
  | .hash ps => "\x7b" ++ render_pair_list ps ++ "\x7d"
  | .prefixE op r => "(" ++ op.render ++ render_expression r ++ ")"
  | .infixE l op r =>
      "(" ++ render_expression l ++ " " ++ op.render ++ " " ++
        render_expression r ++ ")"
  | .ifE c cons alt =>
      "if" ++ render_expression c ++ " " ++ render_block cons ++
        (match alt with
         | none => ""
         | some a => "else " ++ render_block a)
  | .function (.mk params body) =>
      "fn(" ++ String.intercalate ", " (params.map Identifier.name) ++ ") " ++
        render_block body
  | .call f args =>
      (match f with
       | .identifier id => id.name
       | .function (.mk params body) =>
           "fn(" ++ String.intercalate ", " (params.map Identifier.name) ++
             ") " ++ render_block body)
        ++ "(" ++ render_comma_list args ++ ")"
  | .index l i => "(" ++ render_expression l ++ "[" ++ render_expression i ++ "])"
  | .quote e => "quote(" ++ render_expression e ++ ")"
  | .unquote e => "unquote(" ++ render_expression e ++ ")"
  | .macroE (.mk params body) =>
      "macro(" ++ String.intercalate ", " (params.map Identifier.name) ++ ") " ++
        render_block body

/-- Rendering of a comma-separated expression list. -/
def render_comma_list : List Expression → String
  | [] => ""
  | [e] => render_expression e
  | e :: rest => render_expression e ++ ", " ++ render_comma_list rest

/-- Rendering of hash pairs. -/
def render_pair_list : List (Expression × Expression) → String
  | [] => ""
  | [(k, v)] => render_expression k ++ ": " ++ render_expression v
  | (k, v) :: rest =>
      render_expression k ++ ": " ++ render_expression v ++ ", " ++
        render_pair_list rest

/-- Rendering of a statement. `tests::display` pins the let form to
`let <identifier> = <expression>;`. -/
def render_statement : Statement → String
  | .letS id e => "let " ++ id.name ++ " = " ++ render_expression e ++ ";"
  | .returnS e => "return " ++ render_expression e ++ ";"
  | .expression e => render_expression e
  | .block b => render_block b

/-- Rendering of a block: the concatenation of its statement renderings. -/
def render_block : BlockStatement → String
  | .mk stmts => render_stmt_list stmts

/-- Rendering of a statement list, with no separator. -/
def render_stmt_list : List Statement → String
  | [] => ""
  | s :: rest => render_statement s ++ render_stmt_list rest

end

/-- Rendering of a program: the concatenation of its statement renderings
with no separator. -/
def render_program (p : Program) : String :=
  render_stmt_list p.statements

/-- The rendering of a let statement that C8 asserts, written exactly as the
claim's words say: `<lhs> = <rhs>;` with no `let` keyword. -/
def render_let_claim_format (id : Identifier) (e : Expression) : String :=
  id.name ++ " = " ++ render_expression e ++ ";"

/-! ## Debug rendering of expressions

Used only inside the parser's call-callee error message
(`could not parse {:?} as call expression function`). -/

/-- Debug of a prefix operator. -/
def prefix_op_debug : PrefixOperator → String
  | .bang => "Bang"
  | .minus => "Minus"

/-- Debug of an infix operator. -/
def infix_op_debug : InfixOperator → String
  | .add => "Add"
  | .sub => "Sub"
  | .mul => "Mul"
  | .div => "Div"
  | .lt => "LT"
  | .gt => "GT"
  | .eq => "Eq"
  | .notEq => "NotEq"

mutual

/-- Modelled from the spec: Rust's derived `Debug` rendering of an
expression (the derive attribute lives in the missing `ast` module). It is
used only inside one parser error message, whose exact text no claim
inspects. -/
def expr_debug : Expression → String
  | .identifier id => "Identifier(Identifier(\"" ++ id.name ++ "\"))"
  | .integer n => "Integer(" ++ toString n ++ ")"
  | .boolean b => "Boolean(" ++ cond b "true" "false" ++ ")"
  | .string s => "String(\"" ++ s ++ "\")"
  | .array es =>
      "Array([" ++ String.intercalate ", " (expr_debug_list es) ++ "])"
  | .hash ps =>
      "Hash(\x7b" ++ String.intercalate ", " (pair_debug_list ps) ++ "\x7d)"
  | .prefixE op r =>
      "Prefix \x7b operator: " ++ prefix_op_debug op ++ ", right: " ++
        expr_debug r ++ " \x7d"
  | .infixE l op r =>
      "Infix \x7b left: " ++ expr_debug l ++ ", operator: " ++
        infix_op_debug op ++ ", right: " ++ expr_debug r ++ " \x7d"
  | .ifE c cons alt =>
      "If \x7b condition: " ++ expr_debug c ++ ", consequence: " ++
        block_debug cons ++ ", alternative: " ++
        (match alt with
         | none => "None"
         | some a => "Some(" ++ block_debug a ++ ")") ++ " \x7d"
  | .function fe => "Function(" ++ function_debug fe ++ ")"
  | .call cf args =>
      "Call \x7b function: " ++
        (match cf with
         | .identifier id => "Identifier(Identifier(\"" ++ id.name ++ "\"))"
         | .function fe => "Function(" ++ function_debug fe ++ ")") ++
        ", args: [" ++ String.intercalate ", " (expr_debug_list args) ++ "] \x7d"
  | .index l i =>
      "Index \x7b left: " ++ expr_debug l ++ ", index: " ++ expr_debug i ++ " \x7d"
  | .quote e => "Quote(" ++ expr_debug e ++ ")"
  | .unquote e => "Unquote(" ++ expr_debug e ++ ")"
  | .macroE m => "Macro(" ++ macro_debug m ++ ")"

/-- Debug of an expression list. -/
def expr_debug_list : List Expression → List String
  | [] => []
  | e :: rest => expr_debug e :: expr_debug_list rest

/-- Debug of hash pairs. -/
def pair_debug_list : List (Expression × Expression) → List String
  | [] => []
  | (k, v) :: rest => (expr_debug k ++ ": " ++ expr_debug v) :: pair_debug_list rest

/-- Debug of a function literal. -/
def function_debug : FunctionExpression → String
  | .mk params body =>
      "FunctionExpression \x7b params: [" ++
        String.intercalate ", "
          (params.map (fun p => "Identifier(\"" ++ p.name ++ "\")")) ++
        "], body: " ++ block_debug body ++ " \x7d"

/-- Debug of a macro literal. -/
def macro_debug : MacroExpression → String
  | .mk params body =>
      "MacroExpression \x7b params: [" ++
        String.intercalate ", "
          (params.map (fun p => "Identifier(\"" ++ p.name ++ "\")")) ++
        "], body: " ++ block_debug body ++ " \x7d"

/-- Debug of a block. -/
def block_debug : BlockStatement → String
  | .mk stmts =>
      "BlockStatement \x7b statements: [" ++
        String.intercalate ", " (stmt_debug_list stmts) ++ "] \x7d"

/-- Debug of a statement. -/
def stmt_debug : Statement → String
  | .letS id e =>
      "Let \x7b identifier: Identifier(\"" ++ id.name ++ "\"), expression: " ++
        expr_debug e ++ " \x7d"
  | .returnS e => "Return(" ++ expr_debug e ++ ")"
  | .expression e => "Expression(" ++ expr_debug e ++ ")"
  | .block b => "Block(" ++ block_debug b ++ ")"

/-- Debug of a statement list. -/
def stmt_debug_list : List Statement → List String
  | [] => []
  | s :: rest => stmt_debug s :: stmt_debug_list rest

end

/-! ## Parser (src/parser.rs)

The parser state is the list of not-yet-consumed tokens: the Rust parser's
`current_token` is the head, the peek token is the second element, and
`self.next()` is `List.tail` (in Rust, `current_token` is `None` exactly
when the iterator is exhausted, so this single list captures the whole
state). Every recursive parsing function takes explicit fuel and returns
`.out` when it runs out; `parse` supplies `parse_fuel`, which the
termination theorem (C7) proves sufficient for every token list. -/

/-- The precedence ladder (`parser::Precedence`), lowest to highest. -/
inductive Precedence where
  | lowest
  | equals
  | lessGreater
  | sum
  | product
  | prefixP
  | call
  | index
deriving DecidableEq

/-- Discriminant of a precedence, giving the derived `PartialOrd` order. -/
def Precedence.toNat : Precedence → Nat
  | .lowest => 0
  | .equals => 1
  | .lessGreater => 2
  | .sum => 3
  | .product => 4
  | .prefixP => 5
  | .call => 6
  | .index => 7

/-- The derived strict order on precedences. -/
def precLt (a b : Precedence) : Bool :=
  a.toNat < b.toNat

/-- `Parser::token_precedence`. -/
def token_precedence : Option Token → Precedence
  | some .plus | some .minus => .sum
  | some .asterisk | some .slash => .product
  | some .lt | some .gt => .lessGreater
  | some .eq | some .notEq => .equals
  | some .lparen => .call
  | some .lbracket => .index
  | _ => .lowest

/-- `Parser::new_token_error`: `expected token to be X, got Y instead`. -/
def new_token_error (expected : String) (actual : Option Token) : String :=
  "expected token to be " ++ expected ++ ", got " ++
    (match actual with
     | some t => t.debug
     | none => "EOF") ++ " instead"

/-- `Parser::new_parse_error`: `could not parse Y as X`. -/
def new_parse_error (expected : String) (actual : Option Token) : String :=
  "could not parse " ++
    (match actual with
     | some t => t.debug
     | none => "EOF") ++ " as " ++ expected

/-- Result of a fueled parsing function. Both success and failure carry the
parser state left behind (the Rust parser mutates `self` before returning
`Err`, and the top-level loop resynchronizes from that state); `out` marks
fuel exhaustion and is proved unreachable from the bound used by `parse`. -/
inductive PRes (α : Type) where
  | ok (a : α) (rest : List Token)
  | err (msg : String) (rest : List Token)
  | out

/-- Lifts a pure, non-consuming step into `PRes` at state `l`. -/
def liftE {α : Type} (r : Except String α) (l : List Token) : PRes α :=
  match r with
  | .ok a => .ok a l
  | .error m => .err m l

/-- `Parser::expect_current_token`: checks the current token; consumes
nothing. Like the Rust code, the error message reports the peek token. -/
def expect_current_token (expected : Token) (l : List Token) : Except String Unit :=
  if l.head? = some expected then .ok ()
  else .error (new_token_error expected.debug l.tail.head?)

/-- `Parser::expect_peek_token_and_next`: checks the peek token and, on
success, advances onto it (returning the new state). -/
def expect_peek_token_and_next (expected : Token) (l : List Token) :
    Except String (List Token) :=
  if l.tail.head? = some expected then .ok l.tail
  else .error (new_token_error expected.debug l.tail.head?)

/-- `Parser::parse_identifier` (a pure function of one token). -/
def parse_identifier : Option Token → Except String Identifier
  | some (.identifier s) => .ok ⟨s⟩
  | t => .error (new_parse_error "identifier" t)

/-- `Parser::parse_identifier_expression` (reads the current token only). -/
def parse_identifier_expression (l : List Token) : Except String Expression :=
  (parse_identifier l.head?).map .identifier

/-- Accumulates ASCII digits into a number; `none` when no digit has been
seen or a non-digit appears. -/
def parse_i64_digits : List Char → Option Nat → Option Nat
  | [], acc => acc
  | c :: rest, acc =>
    if '0' ≤ c ∧ c ≤ '9' then
      parse_i64_digits rest (some (acc.getD 0 * 10 + (c.toNat - '0'.toNat)))
    else none

/-- Rust's `str::parse::<i64>`, modelled (it is a standard-library
collaborator, not repository code): an optional sign followed by at least
one ASCII digit, rejecting any other character and any value outside the
`i64` range. -/
def parse_i64 (s : String) : Option Int :=
  match s.data with
  | '+' :: rest =>
    (parse_i64_digits rest none).bind fun n =>
      if n < 2 ^ 63 then some (n : Int) else none
  | '-' :: rest =>
    (parse_i64_digits rest none).bind fun n =>
      if n ≤ 2 ^ 63 then some (-(n : Int)) else none
  | l =>
    (parse_i64_digits l none).bind fun n =>
      if n < 2 ^ 63 then some (n : Int) else none

/-- `Parser::parse_integer_expression`: parses the current integer literal;
a numeric-parse failure (ill-formed digits or out of `i64` range) is a hard
parse error. -/
def parse_integer_expression (l : List Token) : Except String Expression :=
  match l.head? with
  | some (.int s) =>
    match parse_i64 s with
    | some n => .ok (.integer n)
    | none => .error (new_parse_error "integer" (some (.int s)))
  | t => .error (new_parse_error "integer" t)

/-- `Parser::parse_boolean_expression`. -/
def parse_boolean_expression (l : List Token) : Except String Expression :=
  match l.head? with
  | some .trueT => .ok (.boolean true)
  | some .falseT => .ok (.boolean false)
  | t => .error (new_parse_error "boolean" t)

/-- `Parser::parse_string_expression`. -/
def parse_string_expression (l : List Token) : Except String Expression :=
  match l.head? with
  | some (.string s) => .ok (.string s)
  | t => .error (new_parse_error "string" t)

/-- The prefix-operator table of `Parser::parse_prefix_expression`. -/
def prefix_operator_of : Token → Option PrefixOperator
  | .bang => some .bang
  | .minus => some .minus
  | _ => none

/-- The infix-operator table of `Parser::parse_infix_expression`. -/
def infix_operator_of : Token → Option InfixOperator
  | .plus => some .add
  | .minus => some .sub
  | .asterisk => some .mul
  | .slash => some .div
  | .lt => some .lt
  | .gt => some .gt
  | .eq => some .eq
  | .notEq => some .notEq
  | _ => none

/-- The callee conversion of `Parser::parse_call_expression`: only an
identifier or a function literal may be called. -/
def call_function_of : Expression → Option CallExpressionFunction
  | .identifier id => some (.identifier id)
  | .function fe => some (.function fe)
  | _ => none

/-- Element kind parsed by the shared comma-separated-list helper. -/
inductive CslElem where
  | expr
  | ident

/-- Element type of each kind. -/
def CslElem.ty : CslElem → Type
  | .expr => Expression
  | .ident => Identifier

mutual

/-- `Parser::parse_statement`: dispatch on the current token. -/
def parse_statement : Nat → List Token → PRes Statement
  | 0, _ => .out
  | f + 1, l =>
    match l.head? with
    | some .letT => parse_let_statement f l
    | some .returnT => parse_return_statement f l
    | some _ => parse_expression_statement f l
    | none => .err (new_parse_error "statement" none) l

/-- `Parser::parse_let_statement`: `let <identifier> = <expression> [;]`. -/
def parse_let_statement : Nat → List Token → PRes Statement
  | 0, _ => .out
  | f + 1, l =>
    match expect_current_token .letT l with
    | .error m => .err m l
    | .ok _ =>
      let l1 := l.tail
      match parse_identifier l1.head? with
      | .error m => .err m l1
      | .ok id =>
        match expect_peek_token_and_next .assign l1 with
        | .error m => .err m l1
        | .ok l2 =>
          match parse_expression f .lowest l2.tail with
          | .out => .out
          | .err m l4 => .err m l4
          | .ok e l4 =>
            .ok (.letS id e)
              (if l4.tail.head? = some .semicolon then l4.tail else l4)

/-- `Parser::parse_return_statement`: `return <expression> [;]`. -/
def parse_return_statement : Nat → List Token → PRes Statement
  | 0, _ => .out
  | f + 1, l =>
    match expect_current_token .returnT l with
    | .error m => .err m l
    | .ok _ =>
      match parse_expression f .lowest l.tail with
      | .out => .out
      | .err m l2 => .err m l2
      | .ok e l2 =>
        .ok (.returnS e)
          (if l2.tail.head? = some .semicolon then l2.tail else l2)

/-- `Parser::parse_expression_statement`: `<expression> [;]`. -/
def parse_expression_statement : Nat → List Token → PRes Statement
  | 0, _ => .out
  | f + 1, l =>
    match parse_expression f .lowest l with
    | .out => .out
    | .err m l1 => .err m l1
    | .ok e l1 =>
      .ok (.expression e)
        (if l1.tail.head? = some .semicolon then l1.tail else l1)

/-- `Parser::parse_block_statement`: `{` then statements until `}` (or end
of input) is the current token. -/
def parse_block_statement : Nat → List Token → PRes BlockStatement
  | 0, _ => .out
  | f + 1, l =>
    match expect_current_token .lbrace l with
    | .error m => .err m l
    | .ok _ =>
      match parse_block_loop f l.tail with
      | .out => .out
      | .err m l1 => .err m l1
      | .ok stmts l1 => .ok (.mk stmts) l1

/-- The statement loop of `parse_block_statement`: parse a statement and
advance one token, while the current token exists and is not `}`. -/
def parse_block_loop : Nat → List Token → PRes (List Statement)
  | 0, _ => .out
  | f + 1, l =>
    match l.head? with
    | none => .ok [] l
    | some .rbrace => .ok [] l
    | some _ =>
      match parse_statement f l with
      | .out => .out
      | .err m l1 => .err m l1
      | .ok s l1 =>
        match parse_block_loop f l1.tail with
        | .out => .out
        | .err m l2 => .err m l2
        | .ok ss l2 => .ok (s :: ss) l2

/-- `Parser::parse_expression`: parse a prefix production, then fold infix
productions while the peek token is not a semicolon and binds strictly
tighter than `prec`. -/
def parse_expression : Nat → Precedence → List Token → PRes Expression
  | 0, _, _ => .out
  | f + 1, prec, l =>
    match parse_prefix_dispatch f l with
    | .out => .out
    | .err m l1 => .err m l1
    | .ok left l1 => parse_infix_loop f prec left l1

/-- The `while` loop of `parse_expression`. -/
def parse_infix_loop : Nat → Precedence → Expression → List Token → PRes Expression
  | 0, _, _, _ => .out
  | f + 1, prec, left, l =>
    match l.tail.head? with
    | none => .ok left l
    | some t =>
      if t = .semicolon then .ok left l
      else if precLt prec (token_precedence (some t)) then
        match parse_infix_dispatch f left l with
        | .out => .out
        | .err m l1 => .err m l1
        | .ok (e, parsed) l1 =>
          if parsed then parse_infix_loop f prec e l1 else .ok e l1
      else .ok left l

/-- `Parser::parse_prefix`: the prefix production dispatch table. -/
def parse_prefix_dispatch : Nat → List Token → PRes Expression
  | 0, _ => .out
  | f + 1, l =>
    match l.head? with
    | some (.identifier _) => liftE (parse_identifier_expression l) l
    | some (.int _) => liftE (parse_integer_expression l) l
    | some .trueT | some .falseT => liftE (parse_boolean_expression l) l
    | some (.string _) => liftE (parse_string_expression l) l
    | some .lbracket => parse_array_expression f l
    | some .lbrace => parse_hash_expression f l
    | some .bang | some .minus => parse_prefix_op_expression f l
    | some .lparen => parse_grouped_expression f l
    | some .ifT => parse_if_expression f l
    | some .function => parse_function_expression f l
    | some .quote => parse_quote_expression f l
    | some .unquote => parse_unquote_expression f l
    | some .macroT => parse_macro_expression f l
    | t => .err (new_parse_error "prefix expression" t) l

/-- Wraps a sub-parse as a successful infix production (the `?` propagation
followed by `Ok((expr, true))` in `Parser::parse_infix`). -/
def wrapInfix (r : PRes Expression) : PRes (Expression × Bool) :=
  match r with
  | .out => .out
  | .err m l1 => .err m l1
  | .ok e l1 => .ok (e, true) l1

/-- `Parser::parse_infix`: the infix production dispatch on the peek token;
on a match, advance onto it and parse; otherwise report `parsed = false`. -/
def parse_infix_dispatch : Nat → Expression → List Token → PRes (Expression × Bool)
  | 0, _, _ => .out
  | f + 1, left, l =>
    match l.tail.head? with
    | some .plus | some .minus | some .asterisk | some .slash
    | some .lt | some .gt | some .eq | some .notEq =>
      wrapInfix (parse_infix_op_expression f left l.tail)
    | some .lparen => wrapInfix (parse_call_expression f left l.tail)
    | some .lbracket => wrapInfix (parse_index_expression f left l.tail)
    | _ => .ok (left, false) l

/-- `Parser::parse_array_expression`: `[` then a comma-separated expression
list terminated by `]`. -/
def parse_array_expression : Nat → List Token → PRes Expression
  | 0, _ => .out
  | f + 1, l =>
    match expect_current_token .lbracket l with
    | .error m => .err m l
    | .ok _ =>
      match parse_expression_list f .rbracket l with
      | .out => .out
      | .err m l1 => .err m l1
      | .ok es l1 => .ok (.array es) l1

/-- `Parser::parse_hash_expression`: `{` then `<expr>: <expr>` entries with
its own comma loop (it does not use the shared list helper), then `}`. -/
def parse_hash_expression : Nat → List Token → PRes Expression
  | 0, _ => .out
  | f + 1, l =>
    match expect_current_token .lbrace l with
    | .error m => .err m l
    | .ok _ =>
      match parse_hash_loop f [] l with
      | .out => .out
      | .err m l1 => .err m l1
      | .ok map l1 =>
        match expect_peek_token_and_next .rbrace l1 with
        | .error m => .err m l1
        | .ok l2 => .ok (.hash map) l2

/-- The entry loop of `parse_hash_expression`: while the peek token exists
and is not `}`, advance, parse `<expr>: <expr>`, insert into the map, and
require a comma unless the next peek is `}` or end of input. -/
def parse_hash_loop : Nat → List (Expression × Expression) → List Token →
    PRes (List (Expression × Expression))
  | 0, _, _ => .out
  | f + 1, map, l =>
    match l.tail.head? with
    | none => .ok map l
    | some .rbrace => .ok map l
    | some _ =>
      match parse_expression f .lowest l.tail with
      | .out => .out
      | .err m l1 => .err m l1
      | .ok key l1 =>
        match expect_peek_token_and_next .colon l1 with
        | .error m => .err m l1
        | .ok l2 =>
          match parse_expression f .lowest l2.tail with
          | .out => .out
          | .err m l3 => .err m l3
          | .ok value l3 =>
            match l3.tail.head? with
            | none => parse_hash_loop f (hashInsert key value map) l3
            | some .rbrace => parse_hash_loop f (hashInsert key value map) l3
            | some _ =>
              match expect_peek_token_and_next .comma l3 with
              | .error m => .err m l3
              | .ok l4 => parse_hash_loop f (hashInsert key value map) l4

/-- `Parser::parse_prefix_expression`: `!`/`-` then an operand parsed at
`Prefix` precedence. -/
def parse_prefix_op_expression : Nat → List Token → PRes Expression
  | 0, _ => .out
  | f + 1, l =>
    match l.head? with
    | some tok =>
      match prefix_operator_of tok with
      | some op =>
        match parse_expression f .prefixP l.tail with
        | .out => .out
        | .err m l1 => .err m l1
        | .ok right l1 => .ok (.prefixE op right) l1
      | none => .err (new_parse_error "prefix operator" (some tok)) l
    | none => .err (new_parse_error "prefix operator" none) l

/-- `Parser::parse_infix_expression`: read the operator at the current
token, then parse the right operand at the operator's own precedence. -/
def parse_infix_op_expression : Nat → Expression → List Token → PRes Expression
  | 0, _, _ => .out
  | f + 1, left, l =>
    match l.head? with
    | some tok =>
      match infix_operator_of tok with
      | some op =>
        match parse_expression f (token_precedence (some tok)) l.tail with
        | .out => .out
        | .err m l1 => .err m l1
        | .ok right l1 => .ok (.infixE left op right) l1
      | none => .err (new_parse_error "infix operator" (some tok)) l
    | none => .err (new_parse_error "infix operator" none) l

/-- `Parser::parse_grouped_expression`: `( <expression> )`. -/
def parse_grouped_expression : Nat → List Token → PRes Expression
  | 0, _ => .out
  | f + 1, l =>
    match expect_current_token .lparen l with
    | .error m => .err m l
    | .ok _ =>
      match parse_expression f .lowest l.tail with
      | .out => .out
      | .err m l1 => .err m l1
      | .ok e l1 =>
        match expect_peek_token_and_next .rparen l1 with
        | .error m => .err m l1
        | .ok l2 => .ok e l2

/-- `Parser::parse_if_expression`:
`if ( <condition> ) { <consequence> } [ else { <alternative> } ]`. -/
def parse_if_expression : Nat → List Token → PRes Expression
  | 0, _ => .out
  | f + 1, l =>
    match expect_current_token .ifT l with
    | .error m => .err m l
    | .ok _ =>
      match expect_peek_token_and_next .lparen l with
      | .error m => .err m l
      | .ok l1 =>
        match parse_expression f .lowest l1.tail with
        | .out => .out
        | .err m l2 => .err m l2
        | .ok cond l2 =>
          match expect_peek_token_and_next .rparen l2 with
          | .error m => .err m l2
          | .ok l3 =>
            match expect_peek_token_and_next .lbrace l3 with
            | .error m => .err m l3
            | .ok l4 =>
              match parse_block_statement f l4 with
              | .out => .out
              | .err m l5 => .err m l5
              | .ok cons l5 =>
                if l5.tail.head? = some .elseT then
                  match expect_peek_token_and_next .lbrace l5.tail with
                  | .error m => .err m l5.tail
                  | .ok l7 =>
                    match parse_block_statement f l7 with
                    | .out => .out
                    | .err m l8 => .err m l8
                    | .ok alt l8 => .ok (.ifE cond cons (some alt)) l8
                else .ok (.ifE cond cons none) l5

/-- `Parser::parse_function_expression`: `fn ( <params> ) { <body> }`. -/
def parse_function_expression : Nat → List Token → PRes Expression
  | 0, _ => .out
  | f + 1, l =>
    match expect_current_token .function l with
    | .error m => .err m l
    | .ok _ =>
      match expect_peek_token_and_next .lparen l with
      | .error m => .err m l
      | .ok l1 =>
        match parse_function_parameters f l1 with
        | .out => .out
        | .err m l2 => .err m l2
        | .ok params l2 =>
          match expect_peek_token_and_next .lbrace l2 with
          | .error m => .err m l2
          | .ok l3 =>
            match parse_block_statement f l3 with
            | .out => .out
            | .err m l4 => .err m l4
            | .ok body l4 => .ok (.function (.mk params body)) l4

/-- `Parser::parse_macro_expression`: `macro ( <params> ) { <body> }`
(structurally identical to a function literal; `parse_macro_parameters`
just delegates to `parse_function_parameters`). -/
def parse_macro_expression : Nat → List Token → PRes Expression
  | 0, _ => .out
  | f + 1, l =>
    match expect_current_token .macroT l with
    | .error m => .err m l
    | .ok _ =>
      match expect_peek_token_and_next .lparen l with
      | .error m => .err m l
      | .ok l1 =>
        match parse_function_parameters f l1 with
        | .out => .out
        | .err m l2 => .err m l2
        | .ok params l2 =>
          match expect_peek_token_and_next .lbrace l2 with
          | .error m => .err m l2
          | .ok l3 =>
            match parse_block_statement f l3 with
            | .out => .out
            | .err m l4 => .err m l4
            | .ok body l4 => .ok (.macroE (.mk params body)) l4

/-- `Parser::parse_call_expression`: convert the callee, then parse the
argument list terminated by `)`. -/
def parse_call_expression : Nat → Expression → List Token → PRes Expression
  | 0, _, _ => .out
  | f + 1, fexpr, l =>
    match call_function_of fexpr with
    | some cf =>
      match parse_expression_list f .rparen l with
      | .out => .out
      | .err m l1 => .err m l1
      | .ok args l1 => .ok (.call cf args) l1
    | none =>
      .err ("could not parse " ++ expr_debug fexpr ++
        " as call expression function") l

/-- `Parser::parse_index_expression`: `[ <expression> ]` after the indexed
expression. -/
def parse_index_expression : Nat → Expression → List Token → PRes Expression
  | 0, _, _ => .out
  | f + 1, left, l =>
    match expect_current_token .lbracket l with
    | .error m => .err m l
    | .ok _ =>
      match parse_expression f .lowest l.tail with
      | .out => .out
      | .err m l1 => .err m l1
      | .ok idx l1 =>
        match expect_peek_token_and_next .rbracket l1 with
        | .error m => .err m l1
        | .ok l2 => .ok (.index left idx) l2

/-- `Parser::parse_quote_expression`: `quote ( <expression> )`. -/
def parse_quote_expression : Nat → List Token → PRes Expression
  | 0, _ => .out
  | f + 1, l =>
    match expect_current_token .quote l with
    | .error m => .err m l
    | .ok _ =>
      match expect_peek_token_and_next .lparen l with
      | .error m => .err m l
      | .ok l1 =>
        match parse_expression f .lowest l1.tail with
        | .out => .out
        | .err m l2 => .err m l2
        | .ok e l2 =>
          match expect_peek_token_and_next .rparen l2 with
          | .error m => .err m l2
          | .ok l3 => .ok (.quote e) l3

/-- `Parser::parse_unquote_expression`: `unquote ( <expression> )`. -/
def parse_unquote_expression : Nat → List Token → PRes Expression
  | 0, _ => .out
  | f + 1, l =>
    match expect_current_token .unquote l with
    | .error m => .err m l
    | .ok _ =>
      match expect_peek_token_and_next .lparen l with
      | .error m => .err m l
      | .ok l1 =>
        match parse_expression f .lowest l1.tail with
        | .out => .out
        | .err m l2 => .err m l2
        | .ok e l2 =>
          match expect_peek_token_and_next .rparen l2 with
          | .error m => .err m l2
          | .ok l3 => .ok (.unquote e) l3

/-- One element of the shared comma-separated list: an expression at
`Lowest` precedence, or an identifier read from the current token. -/
def parse_csl_element : Nat → (k : CslElem) → List Token → PRes k.ty
  | 0, _, _ => .out
  | f + 1, .expr, l => parse_expression f .lowest l
  | _ + 1, .ident, l => liftE (parse_identifier l.head?) l

/-- `Parser::parse_comma_separated_list`: if the peek token is the
terminator the list is empty (consume it); otherwise advance, parse one
element, then hand over to the comma loop. -/
def parse_comma_separated_list : Nat → (k : CslElem) → Token → List Token →
    PRes (List k.ty)
  | 0, _, _, _ => .out
  | f + 1, k, endTok, l =>
    if l.tail.head? = some endTok then .ok [] l.tail
    else
      match parse_csl_element f k l.tail with
      | .out => .out
      | .err m l1 => .err m l1
      | .ok a l1 =>
        match parse_csl_loop f k endTok l1 with
        | .out => .out
        | .err m l2 => .err m l2
        | .ok rest l2 => .ok (a :: rest) l2

/-- The comma loop of `parse_comma_separated_list`: while the peek token is
a comma, advance twice and parse another element; finally require the
terminator as peek and consume it. -/
def parse_csl_loop : Nat → (k : CslElem) → Token → List Token → PRes (List k.ty)
  | 0, _, _, _ => .out
  | f + 1, k, endTok, l =>
    if l.tail.head? = some .comma then
      match parse_csl_element f k l.tail.tail with
      | .out => .out
      | .err m l1 => .err m l1
      | .ok a l1 =>
        match parse_csl_loop f k endTok l1 with
        | .out => .out
        | .err m l2 => .err m l2
        | .ok rest l2 => .ok (a :: rest) l2
    else
      match expect_peek_token_and_next endTok l with
      | .error m => .err m l
      | .ok l1 => .ok [] l1

/-- `Parser::parse_expression_list`: the shared helper at expression
elements. -/
def parse_expression_list : Nat → Token → List Token → PRes (List Expression)
  | 0, _, _ => .out
  | f + 1, endTok, l => parse_comma_separated_list f .expr endTok l

/-- `Parser::parse_function_parameters`: `(` then the shared helper at
identifier elements, terminated by `)`. -/
def parse_function_parameters : Nat → List Token → PRes (List Identifier)
  | 0, _ => .out
  | f + 1, l =>
    match expect_current_token .lparen l with
    | .error m => .err m l
    | .ok _ => parse_comma_separated_list f .ident .rparen l

end

/-- The top-level statement loop of `Parser::parse`: while a current token
exists, parse one statement (collecting the statement or its error message)
and advance one token past the state the attempt left behind. -/
def parse_program_loop : Nat → List Token → Option (List Statement × List String)
  | 0, _ => none
  | _ + 1, [] => some ([], [])
  | f + 1, t :: ts =>
    match parse_statement f (t :: ts) with
    | .out => none
    | .ok s l1 =>
      match parse_program_loop f l1.tail with
      | none => none
      | some (ss, es) => some (s :: ss, es)
    | .err m l1 =>
      match parse_program_loop f l1.tail with
      | none => none
      | some (ss, es) => some (ss, m :: es)

/-- The parse error aggregate (`parser::Errors`). -/
structure Errors where
  messages : List String
deriving DecidableEq

/-- Fuel bound supplied by `parse`; the termination theorem (C7) proves it
is never exhausted. -/
def parse_fuel (l : List Token) : Nat :=
  9 * l.length + 9

/-- `Parser::parse`: run the statement loop to the end of input; fail with
the collected messages iff the error list is non-empty, otherwise succeed
with the built program. -/
def parse (l : List Token) : Except Errors Program :=
  match parse_program_loop (parse_fuel l) l with
  | some (stmts, errors) =>
    if errors.isEmpty then .ok ⟨stmts⟩ else .error ⟨errors⟩
  | none => .error ⟨["internal: out of fuel"]⟩

/-- Length bound of the state left by a parsing step: the parser only moves
forward, so the remaining token list never grows. -/
def PRes.consume {α : Type} : PRes α → List Token → Prop
  | .ok _ l', l => l'.length ≤ l.length
  | .err _ l', l => l'.length ≤ l.length
  | .out, _ => True

/-- Consumption contract of the infix dispatch: at least one token is
consumed whenever it reports `parsed = true`, and the state never grows. -/
def PRes.consumeStrict : PRes (Expression × Bool) → List Token → Prop
  | .ok (_, true) l', l => l'.length < l.length
  | .ok (_, false) l', l => l'.length ≤ l.length
  | .err _ l', l => l'.length ≤ l.length
  | .out, _ => True

/-- Consumption facts for every parser function at a given fuel (the
invariant behind the termination argument): each returns a state no longer
than its input, and the infix dispatch consumes at least one token whenever
it reports `parsed = true`. -/
structure ConsumeAll (f : Nat) : Prop where
  stmt : ∀ l, PRes.consume (parse_statement f l) l
  letS : ∀ l, PRes.consume (parse_let_statement f l) l
  ret : ∀ l, PRes.consume (parse_return_statement f l) l
  exprStmt : ∀ l, PRes.consume (parse_expression_statement f l) l
  block : ∀ l, PRes.consume (parse_block_statement f l) l
  blockLoop : ∀ l, PRes.consume (parse_block_loop f l) l
  expr : ∀ prec l, PRes.consume (parse_expression f prec l) l
  infixLoop : ∀ prec left l, PRes.consume (parse_infix_loop f prec left l) l
  prefixDisp : ∀ l, PRes.consume (parse_prefix_dispatch f l) l
  infixDisp : ∀ left l,
    PRes.consumeStrict (parse_infix_dispatch f left l) l
  arrayE : ∀ l, PRes.consume (parse_array_expression f l) l
  hashE : ∀ l, PRes.consume (parse_hash_expression f l) l
  hashLoop : ∀ map l, PRes.consume (parse_hash_loop f map l) l
  prefixOp : ∀ l, PRes.consume (parse_prefix_op_expression f l) l
  infixOp : ∀ left l, PRes.consume (parse_infix_op_expression f left l) l
  grouped : ∀ l, PRes.consume (parse_grouped_expression f l) l
  ifE : ∀ l, PRes.consume (parse_if_expression f l) l
  funcE : ∀ l, PRes.consume (parse_function_expression f l) l
  macroE : ∀ l, PRes.consume (parse_macro_expression f l) l
  callE : ∀ left l, PRes.consume (parse_call_expression f left l) l
  indexE : ∀ left l, PRes.consume (parse_index_expression f left l) l
  quoteE : ∀ l, PRes.consume (parse_quote_expression f l) l
  unquoteE : ∀ l, PRes.consume (parse_unquote_expression f l) l
  cslElem : ∀ k l, PRes.consume (parse_csl_element f k l) l
  csl : ∀ k endTok l, PRes.consume (parse_comma_separated_list f k endTok l) l
  cslLoop : ∀ k endTok l, PRes.consume (parse_csl_loop f k endTok l) l
  exprList : ∀ endTok l, PRes.consume (parse_expression_list f endTok l) l
  funcParams : ∀ l, PRes.consume (parse_function_parameters f l) l

/-- Fuel demanded by a parsing function of rank `r0` at the empty state and
rank `r1` otherwise: every same-state call strictly decreases the rank, and
every token-consuming call resets it (the factor 9 exceeds every rank). -/
def needFuel (r0 r1 : Nat) (l : List Token) : Nat :=
  match l with
  | [] => r0 + 1
  | _ => 9 * l.length + r1 + 1

/-- Fuel-sufficiency contract for every parser function at a given fuel:
with at least `needFuel` fuel, the function does not run out. Together with
`ConsumeAll` this is the termination argument of the parser (C7). -/
structure SuffAll (f : Nat) : Prop where
  stmt : ∀ l, needFuel 0 6 l ≤ f → parse_statement f l ≠ .out
  letS : ∀ l, needFuel 0 0 l ≤ f → parse_let_statement f l ≠ .out
  ret : ∀ l, needFuel 0 0 l ≤ f → parse_return_statement f l ≠ .out
  exprStmt : ∀ l, needFuel 2 5 l ≤ f → parse_expression_statement f l ≠ .out
  block : ∀ l, needFuel 0 0 l ≤ f → parse_block_statement f l ≠ .out
  blockLoop : ∀ l, needFuel 0 7 l ≤ f → parse_block_loop f l ≠ .out
  expr : ∀ prec l, needFuel 1 4 l ≤ f → parse_expression f prec l ≠ .out
  infixLoop : ∀ prec left l, needFuel 0 1 l ≤ f →
    parse_infix_loop f prec left l ≠ .out
  prefixDisp : ∀ l, needFuel 0 3 l ≤ f → parse_prefix_dispatch f l ≠ .out
  infixDisp : ∀ left l, needFuel 0 0 l ≤ f →
    parse_infix_dispatch f left l ≠ .out
  arrayE : ∀ l, needFuel 0 2 l ≤ f → parse_array_expression f l ≠ .out
  hashE : ∀ l, needFuel 0 1 l ≤ f → parse_hash_expression f l ≠ .out
  hashLoop : ∀ map l, needFuel 0 0 l ≤ f → parse_hash_loop f map l ≠ .out
  prefixOp : ∀ l, needFuel 0 0 l ≤ f → parse_prefix_op_expression f l ≠ .out
  infixOp : ∀ left l, needFuel 0 0 l ≤ f →
    parse_infix_op_expression f left l ≠ .out
  grouped : ∀ l, needFuel 0 0 l ≤ f → parse_grouped_expression f l ≠ .out
  ifE : ∀ l, needFuel 0 0 l ≤ f → parse_if_expression f l ≠ .out
  funcE : ∀ l, needFuel 0 0 l ≤ f → parse_function_expression f l ≠ .out
  macroE : ∀ l, needFuel 0 0 l ≤ f → parse_macro_expression f l ≠ .out
  callE : ∀ left l, needFuel 5 2 l ≤ f → parse_call_expression f left l ≠ .out
  indexE : ∀ left l, needFuel 0 0 l ≤ f →
    parse_index_expression f left l ≠ .out
  quoteE : ∀ l, needFuel 0 0 l ≤ f → parse_quote_expression f l ≠ .out
  unquoteE : ∀ l, needFuel 0 0 l ≤ f → parse_unquote_expression f l ≠ .out
  cslElem : ∀ k l, needFuel 2 5 l ≤ f → parse_csl_element f k l ≠ .out
  csl : ∀ k endTok l, needFuel 3 0 l ≤ f →
    parse_comma_separated_list f k endTok l ≠ .out
  cslLoop : ∀ k endTok l, needFuel 0 0 l ≤ f →
    parse_csl_loop f k endTok l ≠ .out
  exprList : ∀ endTok l, needFuel 4 1 l ≤ f →
    parse_expression_list f endTok l ≠ .out
  funcParams : ∀ l, needFuel 0 1 l ≤ f → parse_function_parameters f l ≠ .out

/-! ## Order lemmas -/

/-- Lexicographic comparison flips `lt` to `gt` with the arguments swapped. -/
theorem natListCompare_flip : ∀ xs ys : List Nat,
    natListCompare xs ys = .lt → natListCompare ys xs = .gt := by
  intro xs
  induction xs with
  | nil =>
    intro ys h
    cases ys with
    | nil => simp [natListCompare] at h
    | cons b bs => simp [natListCompare]
  | cons a as ih =>
    intro ys h
    cases ys with
    | nil => simp [natListCompare] at h
    | cons b bs =>
      simp only [natListCompare] at h ⊢
      by_cases hab : a < b
      · have : ¬ b < a := by omega
        simp [hab, this]
      · by_cases hba : b < a
        · simp [hab, hba] at h
        · simp [hab, hba] at h ⊢
          exact ih bs h

/-- The expression order flips `lt` to `gt` with the arguments swapped. -/
theorem exprCompare_flip {a b : Expression} (h : exprCompare a b = .lt) :
    exprCompare b a = .gt :=
  natListCompare_flip _ _ h

/-- Inserting a key strictly greater than everything in the map appends. -/
theorem hashInsert_append (k v : Expression) :
    ∀ acc : List (Expression × Expression),
      (∀ p ∈ acc, exprCompare p.1 k = .lt) →
      hashInsert k v acc = acc ++ [(k, v)] := by
  intro acc
  induction acc with
  | nil => intro _; rfl
  | cons p rest ih =>
    intro h
    obtain ⟨k', v'⟩ := p
    have hlt : exprCompare k' k = .lt := h (k', v') (by simp)
    have hgt : exprCompare k k' = .gt := exprCompare_flip hlt
    simp only [hashInsert, hgt]
    rw [ih (fun q hq => h q (by simp [hq]))]
    simp

/-- Unfolds `keyLtAll` into its pointwise meaning. -/
theorem keyLtAll_spec {k : Expression} :
    ∀ {l : List (Expression × Expression)}, keyLtAll k l = true →
      ∀ q ∈ l, exprCompare k q.1 = .lt := by
  intro l
  induction l with
  | nil => intro _ q hq; simp at hq
  | cons p rest ih =>
    intro h q hq
    simp only [keyLtAll, Bool.and_eq_true, decide_eq_true_eq] at h
    rcases List.mem_cons.mp hq with hq | hq
    · subst hq
      exact h.1
    · exact ih h.2 q hq

/-! ## Identity transforms leave well-formed trees unchanged -/

/-- Monadic `pure` on `Except` is `Except.ok`. -/
@[simp] theorem except_pure_eq {ε α : Type} (a : α) :
    (pure a : Except ε α) = .ok a := rfl

/-- Monadic bind on an `Except.ok` applies the continuation. -/
@[simp] theorem except_bind_ok {ε α β : Type} (a : α) (f : α → Except ε β) :
    (Except.ok a >>= f : Except ε β) = f a := rfl

/-- Monadic bind on an `Except.error` propagates the error. -/
@[simp] theorem except_bind_error {ε α β : Type} (e : ε) (f : α → Except ε β) :
    (Except.error e >>= f : Except ε β) = .error e := rfl

mutual

/-- An extensionally-identity modifier maps every well-formed expression to
itself under `modify_expression`. -/
theorem modify_expression_id (T : Node → Node) (hT : ∀ n, T n = n) :
    ∀ e : Expression, wf_expr e = true → modify_expression T e = .ok e
  | .identifier _, _ => by simp [modify_expression, hT, Node.expressionCoe]
  | .integer _, _ => by simp [modify_expression, hT, Node.expressionCoe]
  | .boolean _, _ => by simp [modify_expression, hT, Node.expressionCoe]
  | .string _, _ => by simp [modify_expression, hT, Node.expressionCoe]
  | .call _ _, _ => by simp [modify_expression, hT, Node.expressionCoe]
  | .quote _, _ => by simp [modify_expression, hT, Node.expressionCoe]
  | .unquote _, _ => by simp [modify_expression, hT, Node.expressionCoe]
  | .macroE _, _ => by simp [modify_expression, hT, Node.expressionCoe]
  | .array es, h => by
      have h' : wf_expr_list es = true := by simpa [wf_expr] using h
      simp [modify_expression, modify_expr_list_id T hT es h']
  | .hash ps, h => by
      have h' := h
      simp only [wf_expr, Bool.and_eq_true] at h'
      have hrun := modify_hash_pairs_id T hT ps [] h'.2 h'.1 (by simp)
      simp [modify_expression, hrun]
  | .prefixE op r, h => by
      have h' : wf_expr r = true := by simpa [wf_expr] using h
      simp [modify_expression, modify_expression_id T hT r h']
  | .infixE l op r, h => by
      have h' := h
      simp only [wf_expr, Bool.and_eq_true] at h'
      simp [modify_expression, modify_expression_id T hT l h'.1,
        modify_expression_id T hT r h'.2]
  | .ifE c cons none, h => by
      have h' := h
      simp only [wf_expr, Bool.and_eq_true] at h'
      simp [modify_expression, modify_expression_id T hT c h'.1.1,
        modify_block_statement_id T hT cons h'.1.2]
  | .ifE c cons (some a), h => by
      have h' := h
      simp only [wf_expr, Bool.and_eq_true] at h'
      simp [modify_expression, modify_expression_id T hT c h'.1.1,
        modify_block_statement_id T hT cons h'.1.2,
        modify_block_statement_id T hT a h'.2]
  | .function (.mk params body), h => by
      have h' : wf_block body = true := by simpa [wf_expr] using h
      simp [modify_expression, modify_block_statement_id T hT body h']
  | .index l i, h => by
      have h' := h
      simp only [wf_expr, Bool.and_eq_true] at h'
      simp [modify_expression, modify_expression_id T hT l h'.1,
        modify_expression_id T hT i h'.2]

/-- Element loop of the `Array` case, identity version. -/
theorem modify_expr_list_id (T : Node → Node) (hT : ∀ n, T n = n) :
    ∀ es : List Expression, wf_expr_list es = true →
      modify_expr_list T es = .ok es
  | [], _ => by simp [modify_expr_list]
  | e :: rest, h => by
      have h' := h
      simp only [wf_expr_list, Bool.and_eq_true] at h'
      simp [modify_expr_list, modify_expression_id T hT e h'.1,
        modify_expr_list_id T hT rest h'.2]

/-- Pair loop of the `Hash` case, identity version: re-inserting a pairwise
ascending pair list in order rebuilds it behind the accumulator. -/
theorem modify_hash_pairs_id (T : Node → Node) (hT : ∀ n, T n = n) :
    ∀ (ps acc : List (Expression × Expression)),
      wf_pair_list ps = true → keysPairwise ps = true →
      (∀ p ∈ acc, ∀ q ∈ ps, exprCompare p.1 q.1 = .lt) →
      modify_hash_pairs T acc ps = .ok (acc ++ ps)
  | [], acc, _, _, _ => by simp [modify_hash_pairs]
  | (k, v) :: rest, acc, hwf, hsort, hacc => by
      have hwf' := hwf
      have hsort' := hsort
      simp only [wf_pair_list, Bool.and_eq_true] at hwf'
      simp only [keysPairwise, Bool.and_eq_true] at hsort'
      have hk := modify_expression_id T hT k hwf'.1.1
      have hv := modify_expression_id T hT v hwf'.1.2
      have hins : hashInsert k v acc = acc ++ [(k, v)] :=
        hashInsert_append k v acc (fun p hp => hacc p hp (k, v) (by simp))
      have hacc' : ∀ p ∈ acc ++ [(k, v)], ∀ q ∈ rest,
          exprCompare p.1 q.1 = .lt := by
        intro p hp q hq
        rcases List.mem_append.mp hp with hp | hp
        · exact hacc p hp q (List.mem_cons_of_mem _ hq)
        · have hpk : p = (k, v) := by simpa using hp
          subst hpk
          exact keyLtAll_spec hsort'.1 q hq
      have hrec := modify_hash_pairs_id T hT rest (acc ++ [(k, v)])
        hwf'.2 hsort'.2 hacc'
      simp [modify_hash_pairs, hk, hv, hins, hrec]

/-- Identity version for statements. -/
theorem modify_statement_id (T : Node → Node) (hT : ∀ n, T n = n) :
    ∀ s : Statement, wf_stmt s = true → modify_statement T s = .ok s
  | .letS id e, h => by
      have h' : wf_expr e = true := by simpa [wf_stmt] using h
      simp [modify_statement, modify_expression_id T hT e h']
  | .returnS e, h => by
      have h' : wf_expr e = true := by simpa [wf_stmt] using h
      simp [modify_statement, modify_expression_id T hT e h']
  | .expression e, h => by
      have h' : wf_expr e = true := by simpa [wf_stmt] using h
      simp [modify_statement, modify_expression_id T hT e h']
  | .block b, h => by
      have h' : wf_block b = true := by simpa [wf_stmt] using h
      simp [modify_statement, modify_block_statement_id T hT b h']

/-- Identity version for blocks. -/
theorem modify_block_statement_id (T : Node → Node) (hT : ∀ n, T n = n) :
    ∀ b : BlockStatement, wf_block b = true →
      modify_block_statement T b = .ok b
  | .mk stmts, h => by
      have h' : wf_stmt_list stmts = true := by simpa [wf_block] using h
      simp [modify_block_statement, modify_stmt_list_id T hT stmts h']

/-- Identity version for statement lists. -/
theorem modify_stmt_list_id (T : Node → Node) (hT : ∀ n, T n = n) :
    ∀ l : List Statement, wf_stmt_list l = true →
      modify_stmt_list T l = .ok l
  | [], _ => by simp [modify_stmt_list]
  | s :: rest, h => by
      have h' := h
      simp only [wf_stmt_list, Bool.and_eq_true] at h'
      simp [modify_stmt_list, modify_statement_id T hT s h'.1,
        modify_stmt_list_id T hT rest h'.2]

end

/-- Identity version of `modify` over any node. -/
theorem modify_id (T : Node → Node) (hT : ∀ n, T n = n) :
    ∀ n : Node, wf_node n = true → modify n T = .ok n
  | .program p, h => by
      have h' : wf_stmt_list p.statements = true := by simpa [wf_node] using h
      simp [modify, modify_program, modify_stmt_list_id T hT _ h']
  | .statement s, h => by
      have h' : wf_stmt s = true := by simpa [wf_node] using h
      simp [modify, modify_statement_id T hT s h']
  | .expression e, h => by
      have h' : wf_expr e = true := by simpa [wf_node] using h
      simp [modify, modify_expression_id T hT e h']

/-! ## Totality of the rewriter under expression-preserving transforms -/

mutual

/-- If the transform maps expression nodes to expression nodes, rewriting an
expression never fails. -/
theorem modify_expression_total (T : Node → Node)
    (hT : ∀ e : Expression, ∃ e', T (.expression e) = .expression e') :
    ∀ e : Expression, ∃ r, modify_expression T e = .ok r
  | .identifier id => by
      obtain ⟨e', he⟩ := hT (.identifier id)
      exact ⟨e', by simp [modify_expression, he, Node.expressionCoe]⟩
  | .integer n => by
      obtain ⟨e', he⟩ := hT (.integer n)
      exact ⟨e', by simp [modify_expression, he, Node.expressionCoe]⟩
  | .boolean b => by
      obtain ⟨e', he⟩ := hT (.boolean b)
      exact ⟨e', by simp [modify_expression, he, Node.expressionCoe]⟩
  | .string s => by
      obtain ⟨e', he⟩ := hT (.string s)
      exact ⟨e', by simp [modify_expression, he, Node.expressionCoe]⟩
  | .call f args => by
      obtain ⟨e', he⟩ := hT (.call f args)
      exact ⟨e', by simp [modify_expression, he, Node.expressionCoe]⟩
  | .quote e => by
      obtain ⟨e', he⟩ := hT (.quote e)
      exact ⟨e', by simp [modify_expression, he, Node.expressionCoe]⟩
  | .unquote e => by
      obtain ⟨e', he⟩ := hT (.unquote e)
      exact ⟨e', by simp [modify_expression, he, Node.expressionCoe]⟩
  | .macroE m => by
      obtain ⟨e', he⟩ := hT (.macroE m)
      exact ⟨e', by simp [modify_expression, he, Node.expressionCoe]⟩
  | .array es => by
      obtain ⟨es', hes⟩ := modify_expr_list_total T hT es
      exact ⟨.array es', by simp [modify_expression, hes]⟩
  | .hash ps => by
      obtain ⟨ps', hps⟩ := modify_hash_pairs_total T hT ps []
      exact ⟨.hash ps', by simp [modify_expression, hps]⟩
  | .prefixE op r => by
      obtain ⟨r', hr⟩ := modify_expression_total T hT r
      exact ⟨.prefixE op r', by simp [modify_expression, hr]⟩
  | .infixE l op r => by
      obtain ⟨l', hl⟩ := modify_expression_total T hT l
      obtain ⟨r', hr⟩ := modify_expression_total T hT r
      exact ⟨.infixE l' op r', by simp [modify_expression, hl, hr]⟩
  | .ifE c cons none => by
      obtain ⟨c', hc⟩ := modify_expression_total T hT c
      obtain ⟨cons', hcons⟩ := modify_block_statement_total T hT cons
      exact ⟨.ifE c' cons' none, by simp [modify_expression, hc, hcons]⟩
  | .ifE c cons (some a) => by
      obtain ⟨c', hc⟩ := modify_expression_total T hT c
      obtain ⟨cons', hcons⟩ := modify_block_statement_total T hT cons
      obtain ⟨a', ha⟩ := modify_block_statement_total T hT a
      exact ⟨.ifE c' cons' (some a'), by simp [modify_expression, hc, hcons, ha]⟩
  | .function (.mk params body) => by
      obtain ⟨body', hbody⟩ := modify_block_statement_total T hT body
      exact ⟨.function (.mk params body'), by simp [modify_expression, hbody]⟩
  | .index l i => by
      obtain ⟨l', hl⟩ := modify_expression_total T hT l
      obtain ⟨i', hi⟩ := modify_expression_total T hT i
      exact ⟨.index l' i', by simp [modify_expression, hl, hi]⟩

/-- Totality of the array element loop. -/
theorem modify_expr_list_total (T : Node → Node)
    (hT : ∀ e : Expression, ∃ e', T (.expression e) = .expression e') :
    ∀ es : List Expression, ∃ r, modify_expr_list T es = .ok r
  | [] => ⟨[], by simp [modify_expr_list]⟩
  | e :: rest => by
      obtain ⟨e', he⟩ := modify_expression_total T hT e
      obtain ⟨rest', hrest⟩ := modify_expr_list_total T hT rest
      exact ⟨e' :: rest', by simp [modify_expr_list, he, hrest]⟩

/-- Totality of the hash pair loop. -/
theorem modify_hash_pairs_total (T : Node → Node)
    (hT : ∀ e : Expression, ∃ e', T (.expression e) = .expression e') :
    ∀ (ps acc : List (Expression × Expression)),
      ∃ r, modify_hash_pairs T acc ps = .ok r
  | [], acc => ⟨acc, by simp [modify_hash_pairs]⟩
  | (k, v) :: rest, acc => by
      obtain ⟨k', hk⟩ := modify_expression_total T hT k
      obtain ⟨v', hv⟩ := modify_expression_total T hT v
      obtain ⟨r, hr⟩ := modify_hash_pairs_total T hT rest (hashInsert k' v' acc)
      exact ⟨r, by simp [modify_hash_pairs, hk, hv, hr]⟩

/-- Totality for statements. -/
theorem modify_statement_total (T : Node → Node)
    (hT : ∀ e : Expression, ∃ e', T (.expression e) = .expression e') :
    ∀ s : Statement, ∃ r, modify_statement T s = .ok r
  | .letS id e => by
      obtain ⟨e', he⟩ := modify_expression_total T hT e
      exact ⟨.letS id e', by simp [modify_statement, he]⟩
  | .returnS e => by
      obtain ⟨e', he⟩ := modify_expression_total T hT e
      exact ⟨.returnS e', by simp [modify_statement, he]⟩
  | .expression e => by
      obtain ⟨e', he⟩ := modify_expression_total T hT e
      exact ⟨.expression e', by simp [modify_statement, he]⟩
  | .block b => by
      obtain ⟨b', hb⟩ := modify_block_statement_total T hT b
      exact ⟨.block b', by simp [modify_statement, hb]⟩

/-- Totality for blocks. -/
theorem modify_block_statement_total (T : Node → Node)
    (hT : ∀ e : Expression, ∃ e', T (.expression e) = .expression e') :
    ∀ b : BlockStatement, ∃ r, modify_block_statement T b = .ok r
  | .mk stmts => by
      obtain ⟨l', hl⟩ := modify_stmt_list_total T hT stmts
      exact ⟨.mk l', by simp [modify_block_statement, hl]⟩

/-- Totality for statement lists. -/
theorem modify_stmt_list_total (T : Node → Node)
    (hT : ∀ e : Expression, ∃ e', T (.expression e) = .expression e') :
    ∀ l : List Statement, ∃ r, modify_stmt_list T l = .ok r
  | [] => ⟨[], by simp [modify_stmt_list]⟩
  | s :: rest => by
      obtain ⟨s', hs⟩ := modify_statement_total T hT s
      obtain ⟨rest', hrest⟩ := modify_stmt_list_total T hT rest
      exact ⟨s' :: rest', by simp [modify_stmt_list, hs, hrest]⟩

end

/-! ## Claim theorems for the tree rewriter -/

/-- C3: every expression variant without an explicit rewrite case —
Identifier, Integer, Boolean, String, Call, Quote, Unquote, Macro — is
passed whole and unmodified into the transform (its result coerced back to
an expression), with no recursion into sub-expressions; in particular,
rewriting a Call whose argument is the integer leaf 1 with the 1→2 transform
returns the Call unchanged. -/
theorem claim3_opaque_passed_whole :
    (∀ (T : Node → Node) (id : Identifier),
      modify_expression T (.identifier id) =
        Node.expressionCoe (T (.expression (.identifier id)))) ∧
    (∀ (T : Node → Node) (n : Int),
      modify_expression T (.integer n) =
        Node.expressionCoe (T (.expression (.integer n)))) ∧
    (∀ (T : Node → Node) (b : Bool),
      modify_expression T (.boolean b) =
        Node.expressionCoe (T (.expression (.boolean b)))) ∧
    (∀ (T : Node → Node) (s : String),
      modify_expression T (.string s) =
        Node.expressionCoe (T (.expression (.string s)))) ∧
    (∀ (T : Node → Node) (f : CallExpressionFunction) (args : List Expression),
      modify_expression T (.call f args) =
        Node.expressionCoe (T (.expression (.call f args)))) ∧
    (∀ (T : Node → Node) (e : Expression),
      modify_expression T (.quote e) =
        Node.expressionCoe (T (.expression (.quote e)))) ∧
    (∀ (T : Node → Node) (e : Expression),
      modify_expression T (.unquote e) =
        Node.expressionCoe (T (.expression (.unquote e)))) ∧
    (∀ (T : Node → Node) (m : MacroExpression),
      modify_expression T (.macroE m) =
        Node.expressionCoe (T (.expression (.macroE m)))) ∧
    modify (.expression (.call (.identifier ⟨"f"⟩) [.integer 1]))
        turn_one_into_two =
      .ok (.expression (.call (.identifier ⟨"f"⟩) [.integer 1])) := by
  refine ⟨?_, ?_, ?_, ?_, ?_, ?_, ?_, ?_, ?_⟩
  · intro T id; simp [modify_expression]
  · intro T n; simp [modify_expression]
  · intro T b; simp [modify_expression]
  · intro T s; simp [modify_expression]
  · intro T f args; simp [modify_expression]
  · intro T e; simp [modify_expression]
  · intro T e; simp [modify_expression]
  · intro T m; simp [modify_expression]
  · simp [modify, modify_expression, turn_one_into_two, Node.expressionCoe]

/-- C5: applying the tree rewriter with a transform that is the identity on
nodes returns a tree structurally equal to the input, for every node
satisfying the sortedness invariant (`wf_node`) that every Rust value of the
type carries by `BTreeMap` construction. -/
theorem claim5_identity_transform (T : Node → Node) (hT : ∀ n, T n = n)
    (n : Node) (h : wf_node n = true) : modify n T = .ok n :=
  modify_id T hT n h

/-- Witness for C5: the identity transform at a concrete well-formed node. -/
theorem claim5_identity_transform_witness :
    (∀ n : Node, (fun m : Node => m) n = n) ∧
    wf_node (.expression (.hash [(.integer 1, .integer 2)])) = true ∧
    modify (.expression (.hash [(.integer 1, .integer 2)])) (fun m => m) =
      .ok (.expression (.hash [(.integer 1, .integer 2)])) :=
  ⟨fun _ => rfl, by decide,
    claim5_identity_transform (fun m => m) (fun _ => rfl) _ (by decide)⟩

/-- C6: on composite expressions with an explicit rewrite case the engine
rewrites exactly the listed sub-parts and preserves every other field —
operators of Prefix/Infix, the parameter list of Function, the identifier of
a Let statement, the absence/presence of an If alternative — and the result
is determined without the transform ever receiving the composite node
itself. -/
theorem claim6_composite_frame :
    (∀ (T : Node → Node) (es : List Expression),
      modify_expression T (.array es) =
        (modify_expr_list T es).map Expression.array) ∧
    (∀ (T : Node → Node) (ps : List (Expression × Expression)),
      modify_expression T (.hash ps) =
        (modify_hash_pairs T [] ps).map Expression.hash) ∧
    (∀ (T : Node → Node) (op : PrefixOperator) (r : Expression),
      modify_expression T (.prefixE op r) =
        (modify_expression T r).map (Expression.prefixE op)) ∧
    (∀ (T : Node → Node) (l : Expression) (op : InfixOperator) (r : Expression),
      modify_expression T (.infixE l op r) =
        (modify_expression T l).bind (fun l' =>
          (modify_expression T r).map (fun r' => .infixE l' op r'))) ∧
    (∀ (T : Node → Node) (c : Expression) (cons : BlockStatement),
      modify_expression T (.ifE c cons none) =
        (modify_expression T c).bind (fun c' =>
          (modify_block_statement T cons).map (fun cons' =>
            .ifE c' cons' none))) ∧
    (∀ (T : Node → Node) (c : Expression) (cons a : BlockStatement),
      modify_expression T (.ifE c cons (some a)) =
        (modify_expression T c).bind (fun c' =>
          (modify_block_statement T cons).bind (fun cons' =>
            (modify_block_statement T a).map (fun a' =>
              .ifE c' cons' (some a'))))) ∧
    (∀ (T : Node → Node) (params : List Identifier) (body : BlockStatement),
      modify_expression T (.function (.mk params body)) =
        (modify_block_statement T body).map (fun body' =>
          .function (.mk params body'))) ∧
    (∀ (T : Node → Node) (l i : Expression),
      modify_expression T (.index l i) =
        (modify_expression T l).bind (fun l' =>
          (modify_expression T i).map (fun i' => .index l' i'))) ∧
    (∀ (T : Node → Node) (id : Identifier) (e : Expression),
      modify_statement T (.letS id e) =
        (modify_expression T e).map (Statement.letS id)) := by
  refine ⟨?_, ?_, ?_, ?_, ?_, ?_, ?_, ?_, ?_⟩
  · intro T es
    cases h : modify_expr_list T es <;>
      simp [modify_expression, h, Except.map]
  · intro T ps
    cases h : modify_hash_pairs T [] ps <;>
      simp [modify_expression, h, Except.map]
  · intro T op r
    cases h : modify_expression T r <;>
      simp [modify_expression, h, Except.map]
  · intro T l op r
    cases hl : modify_expression T l <;>
      cases hr : modify_expression T r <;>
        simp [modify_expression, hl, hr, Except.map, Except.bind]
  · intro T c cons
    cases hc : modify_expression T c <;>
      cases hcons : modify_block_statement T cons <;>
        simp [modify_expression, hc, hcons, Except.map, Except.bind]
  · intro T c cons a
    cases hc : modify_expression T c <;>
      cases hcons : modify_block_statement T cons <;>
        cases ha : modify_block_statement T a <;>
          simp [modify_expression, hc, hcons, ha, Except.map, Except.bind]
  · intro T params body
    cases h : modify_block_statement T body <;>
      simp [modify_expression, h, Except.map]
  · intro T l i
    cases hl : modify_expression T l <;>
      cases hi : modify_expression T i <;>
        simp [modify_expression, hl, hi, Except.map, Except.bind]
  · intro T id e
    cases h : modify_expression T e <;>
      simp [modify_statement, h, Except.map]

/-- C9: for every node and every transform that maps expression-wrapped
nodes to expression-wrapped nodes, `modify` returns `Ok`; the error branch
of the expression coercion is unreachable under that precondition. -/
theorem claim9_modify_total (T : Node → Node)
    (hT : ∀ e : Expression, ∃ e', T (.expression e) = .expression e')
    (n : Node) : ∃ r, modify n T = .ok r := by
  cases n with
  | program p =>
    obtain ⟨l', hl⟩ := modify_stmt_list_total T hT p.statements
    exact ⟨.program ⟨l'⟩, by simp [modify, modify_program, hl]⟩
  | statement s =>
    obtain ⟨s', hs⟩ := modify_statement_total T hT s
    exact ⟨.statement s', by simp [modify, hs]⟩
  | expression e =>
    obtain ⟨e', he⟩ := modify_expression_total T hT e
    exact ⟨.expression e', by simp [modify, he]⟩

/-- Witness for C9: the 1→2 transform (which always returns an expression
node for an expression node) applied at a concrete node. -/
theorem claim9_modify_total_witness :
    (∀ e : Expression, ∃ e',
      turn_one_into_two (.expression e) = .expression e') ∧
    ∃ r, modify (.expression (.array [.integer 1, .integer 1]))
      turn_one_into_two = .ok r := by
  have hT : ∀ e : Expression, ∃ e',
      turn_one_into_two (.expression e) = .expression e' := by
    intro e
    by_cases h : e = .integer 1
    · subst h
      exact ⟨.integer 2, rfl⟩
    · refine ⟨e, ?_⟩
      cases e <;> simp [turn_one_into_two]
      rename_i n
      cases h' : (n == (1 : Int)) <;> simp_all [turn_one_into_two]
  exact ⟨hT,
    claim9_modify_total turn_one_into_two hT
      (.expression (.array [.integer 1, .integer 1]))⟩

/-! ## Claim theorems for the built-ins and the rendering contract -/

/-- Message normalization for the arity error with `want=1`. -/
theorem wrong_args_msg (n : Nat) :
    new_wrong_number_arguments_error n 1 =
      .error ("wrong number of arguments. got=" ++ toString n ++ ", want=1") := by
  have h : ", want=" ++ toString (1 : Nat) = ", want=1" := by decide
  simp only [new_wrong_number_arguments_error, String.append_assoc, h]

/-- C10: `len`, `first` and `last` each reject an argument vector whose
length is not 1 with the error message `wrong number of arguments.
got=<n>, want=1` (no panic), and `first`/`last` on an empty array return
Null, not an error. -/
theorem claim10_builtins :
    (∀ args : List Object, args.length ≠ 1 →
      len args = .error ("wrong number of arguments. got=" ++
          toString args.length ++ ", want=1") ∧
      first args = .error ("wrong number of arguments. got=" ++
          toString args.length ++ ", want=1") ∧
      last args = .error ("wrong number of arguments. got=" ++
          toString args.length ++ ", want=1")) ∧
    first [.array []] = .null ∧
    last [.array []] = .null := by
  refine ⟨?_, by simp [first], by simp [last]⟩
  intro args h
  match args with
  | [] =>
    exact ⟨by simp [len, wrong_args_msg], by simp [first, wrong_args_msg],
      by simp [last, wrong_args_msg]⟩
  | [a] => simp at h
  | a :: b :: rest =>
    refine ⟨?_, ?_, ?_⟩ <;>
      simp [len, first, last, wrong_args_msg]

/-- Witness for C10 at the empty argument vector. -/
theorem claim10_builtins_witness :
    ([] : List Object).length ≠ 1 ∧
    len ([] : List Object) =
      .error "wrong number of arguments. got=0, want=1" := by
  refine ⟨by decide, ?_⟩
  have h := (claim10_builtins.1 ([] : List Object) (by decide)).1
  rw [h]
  congr 1

/-- C8 counterexample: a let statement does not render in the claimed bare
`<lhs> = <rhs>;` format — the rendering pinned by the in-repo test
`tests::display` prepends the `let` keyword, so at the concrete statement
`Let{my_var, another_var}` the claimed rendering disagrees with the actual
one. -/
theorem claim8_counterexample :
    render_statement (.letS ⟨"my_var"⟩ (.identifier ⟨"another_var"⟩)) ≠
      render_let_claim_format ⟨"my_var"⟩ (.identifier ⟨"another_var"⟩) ∧
    render_let_claim_format ⟨"my_var"⟩ (.identifier ⟨"another_var"⟩) =
      "my_var = another_var;" := by
  constructor
  · intro h
    rw [show render_statement (.letS ⟨"my_var"⟩ (.identifier ⟨"another_var"⟩)) =
        "let my_var = another_var;" by rfl] at h
    rw [show render_let_claim_format ⟨"my_var"⟩ (.identifier ⟨"another_var"⟩) =
        "my_var = another_var;" by rfl] at h
    exact absurd h (by decide)
  · rfl

/-- C8 amended: a let statement renders as `let <lhs> = <rhs>;` (with the
keyword), a return statement as `return <expr>;`, an expression statement as
the bare expression text, and the program `let my_var = another_var;`
round-trips to the identical source text. -/
theorem claim8_amended_render :
    (∀ (id : Identifier) (e : Expression),
      render_statement (.letS id e) =
        "let " ++ id.name ++ " = " ++ render_expression e ++ ";") ∧
    (∀ e : Expression,
      render_statement (.returnS e) = "return " ++ render_expression e ++ ";") ∧
    (∀ e : Expression,
      render_statement (.expression e) = render_expression e) ∧
    render_program ⟨[.letS ⟨"my_var"⟩ (.identifier ⟨"another_var"⟩)]⟩ =
      "let my_var = another_var;" := by
  refine ⟨?_, ?_, ?_, rfl⟩
  · intro id e; simp [render_statement]
  · intro e; simp [render_statement]
  · intro e; simp [render_statement]

/-! ## Claim theorems for the parser's precedence, error aggregation and
list handling -/

/-- C1: the Pratt loop continues only when the peek token's precedence is
strictly greater than the minimum (a non-strictly-greater peek stops the
loop immediately), so equal-precedence chains parse left-associatively and
higher-precedence operators bind tighter: `a - b - c` parses as
`(a - b) - c` and `a + b * c` binds `*` under `+`. -/
theorem claim1_precedence_associativity :
    parse [.identifier "a", .minus, .identifier "b", .minus, .identifier "c"] =
      .ok ⟨[.expression (.infixE
        (.infixE (.identifier ⟨"a"⟩) .sub (.identifier ⟨"b"⟩)) .sub
        (.identifier ⟨"c"⟩))]⟩ ∧
    parse [.identifier "a", .plus, .identifier "b", .asterisk, .identifier "c"] =
      .ok ⟨[.expression (.infixE (.identifier ⟨"a"⟩) .add
        (.infixE (.identifier ⟨"b"⟩) .mul (.identifier ⟨"c"⟩)))]⟩ ∧
    (∀ (f : Nat) (prec : Precedence) (left : Expression) (l : List Token)
      (t : Token), l.tail.head? = some t →
      precLt prec (token_precedence (some t)) = false →
      parse_infix_loop (f + 1) prec left l = .ok left l) := by
  refine ⟨rfl, rfl, ?_⟩
  intro f prec left l t hpeek hprec
  simp only [parse_infix_loop, hpeek]
  by_cases hsemi : t = .semicolon
  · simp [hsemi]
  · simp [hsemi, hprec]

/-- Witness for C1's general stop clause: with minimum precedence `Sum`, a
peek `-` (also `Sum`) fails the strict test and the loop returns the left
operand unchanged. -/
theorem claim1_precedence_associativity_witness :
    ([Token.minus, Token.minus].tail.head? = some Token.minus) ∧
    precLt .sum (token_precedence (some .minus)) = false ∧
    parse_infix_loop 1 .sum (.identifier ⟨"a"⟩) [.minus, .minus] =
      .ok (.identifier ⟨"a"⟩) [.minus, .minus] :=
  ⟨rfl, rfl,
    claim1_precedence_associativity.2.2 0 .sum (.identifier ⟨"a"⟩)
      [.minus, .minus] .minus rfl rfl⟩

/-- C2: the top-level parse collects one error message per failed statement
and keeps going; it fails iff the collected error list is non-empty (with
exactly that list), and a program with two independently malformed
statements yields two error messages. -/
theorem claim2_error_aggregation :
    (∀ (l : List Token) (msgs : Errors),
      parse l = .error msgs → msgs.messages ≠ []) ∧
    (∀ (l : List Token) (ss : List Statement) (es : List String),
      parse_program_loop (parse_fuel l) l = some (ss, es) →
      (es = [] → parse l = .ok ⟨ss⟩) ∧ (es ≠ [] → parse l = .error ⟨es⟩)) ∧
    parse [.plus, .asterisk] =
      .error ⟨["could not parse Plus as prefix expression",
        "could not parse Asterisk as prefix expression"]⟩ := by
  refine ⟨?_, ?_, rfl⟩
  · intro l msgs h
    unfold parse at h
    cases hp : parse_program_loop (parse_fuel l) l with
    | none =>
      rw [hp] at h
      cases h
      simp
    | some r =>
      obtain ⟨ss, es⟩ := r
      rw [hp] at h
      by_cases he : es.isEmpty
      · simp [he] at h
      · simp [he] at h
        rw [← h]
        simpa using he
  · intro l ss es hp
    constructor
    · intro he
      subst he
      simp [parse, hp]
    · intro he
      have : ¬ es.isEmpty := by simpa using he
      simp [parse, hp, this]

/-- Witness for C2 at the concrete two-error program. -/
theorem claim2_error_aggregation_witness :
    ["could not parse Plus as prefix expression",
      "could not parse Asterisk as prefix expression"] ≠ ([] : List String) :=
  claim2_error_aggregation.1 [.plus, .asterisk]
    ⟨["could not parse Plus as prefix expression",
      "could not parse Asterisk as prefix expression"]⟩
    claim2_error_aggregation.2.2

/-- C4 counterexample: hash-literal parsing does not share the
comma/terminator handling of the list helper — a trailing comma before the
closing `}` of a hash literal is accepted (the claim says it is rejected),
while the same trailing comma before `]` is a parse error. -/
theorem claim4_counterexample :
    parse [.lbrace, .int "1", .colon, .int "2", .comma, .rbrace] =
      .ok ⟨[.expression (.hash [(.integer 1, .integer 2)])]⟩ ∧
    parse [.lbracket, .int "1", .comma, .rbracket] =
      .error ⟨["could not parse RBracket as prefix expression"]⟩ :=
  ⟨rfl, rfl⟩

/-- C4 amended: array, call-argument and parameter lists all go through the
single shared comma-separated-list helper and reject a trailing comma before
their terminator; hash literals use their own entry loop, which accepts (and
does not require) a trailing comma before `}`. -/
theorem claim4_amended_list_handling :
    (∀ (f : Nat) (endTok : Token) (l : List Token),
      parse_expression_list (f + 1) endTok l =
        parse_comma_separated_list f .expr endTok l) ∧
    (∀ (f : Nat) (l : List Token),
      parse_function_parameters (f + 1) l =
        match expect_current_token .lparen l with
        | .error m => .err m l
        | .ok _ => parse_comma_separated_list f .ident .rparen l) ∧
    parse [.lbracket, .int "1", .comma, .rbracket] =
      .error ⟨["could not parse RBracket as prefix expression"]⟩ ∧
    parse [.identifier "f", .lparen, .int "1", .comma, .rparen] =
      .error ⟨["could not parse RParen as prefix expression"]⟩ ∧
    parse [.function, .lparen, .identifier "x", .comma, .rparen,
        .lbrace, .rbrace] =
      .error ⟨["could not parse RParen as identifier"]⟩ ∧
    parse [.lbrace, .int "1", .colon, .int "2", .comma, .rbrace] =
      .ok ⟨[.expression (.hash [(.integer 1, .integer 2)])]⟩ ∧
    parse [.lbrace, .int "1", .colon, .int "2", .rbrace] =
      .ok ⟨[.expression (.hash [(.integer 1, .integer 2)])]⟩ :=
  ⟨fun _ _ _ => rfl, fun _ _ => rfl, rfl, rfl, rfl, rfl, rfl⟩

/-! ## Consumption lemmas: the parser only moves forward -/

/-- Tails never grow. -/
theorem tail_len (l : List Token) : l.tail.length ≤ l.length := by
  cases l <;> simp

/-- Tails of non-empty lists shrink. -/
theorem tail_len_lt {l : List Token} (h : l ≠ []) :
    l.tail.length < l.length := by
  cases l with
  | nil => exact absurd rfl h
  | cons a as => simp

/-- A list with a head is non-empty. -/
theorem head_some_ne {l : List Token} {t : Token} (h : l.head? = some t) :
    l ≠ [] := by
  cases l <;> simp_all

/-- Success of `expect_peek_token_and_next` advances onto the expected
token. -/
theorem expect_peek_ok {t : Token} {l l' : List Token}
    (h : expect_peek_token_and_next t l = .ok l') :
    l' = l.tail ∧ l.tail.head? = some t := by
  unfold expect_peek_token_and_next at h
  split at h
  · cases h
    constructor
    · rfl
    · assumption
  · cases h

/-- Success of `expect_current_token` means the head is the expected
token. -/
theorem expect_current_ok {t : Token} {l : List Token} {u : Unit}
    (h : expect_current_token t l = .ok u) : l.head? = some t := by
  unfold expect_current_token at h
  split at h
  · assumption
  · cases h

/-- Transfers a consumption fact along an `ok` equation. -/
theorem consume_ok {α : Type} {r : PRes α} {l l' : List Token} {a : α}
    (hc : PRes.consume r l) (h : r = .ok a l') : l'.length ≤ l.length := by
  subst h
  exact hc

/-- Transfers a consumption fact along an `err` equation. -/
theorem consume_err {α : Type} {r : PRes α} {l l' : List Token} {m : String}
    (hc : PRes.consume r l) (h : r = .err m l') : l'.length ≤ l.length := by
  subst h
  exact hc

/-- Consumption is monotone in the reference state. -/
theorem consume_mono {α : Type} {r : PRes α} {l1 l : List Token}
    (h : PRes.consume r l1) (hle : l1.length ≤ l.length) :
    PRes.consume r l := by
  cases r <;> simp only [PRes.consume] at * <;> omega

/-- Wrapping a strictly consuming step with `wrapInfix` satisfies the
infix-dispatch consumption contract. -/
theorem consume_wrap_true {r : PRes Expression} {l0 l : List Token}
    (hc : PRes.consume r l0) (hlt : l0.length < l.length) :
    PRes.consumeStrict (wrapInfix r) l := by
  cases r <;>
    simp only [wrapInfix, PRes.consume, PRes.consumeStrict] at * <;>
    omega

/-- Every parser function leaves a state no longer than its input, at every
fuel. -/
theorem consume_all : ∀ f, ConsumeAll f := by
  intro f
  induction f with
  | zero =>
    refine ⟨?_, ?_, ?_, ?_, ?_, ?_, ?_, ?_, ?_, ?_, ?_, ?_, ?_, ?_, ?_, ?_,
      ?_, ?_, ?_, ?_, ?_, ?_, ?_, ?_, ?_, ?_, ?_, ?_⟩ <;>
      intros <;>
      simp [parse_statement, parse_let_statement, parse_return_statement,
        parse_expression_statement, parse_block_statement, parse_block_loop,
        parse_expression, parse_infix_loop, parse_prefix_dispatch,
        parse_infix_dispatch, parse_array_expression, parse_hash_expression,
        parse_hash_loop, parse_prefix_op_expression, parse_infix_op_expression,
        parse_grouped_expression, parse_if_expression, parse_function_expression,
        parse_macro_expression, parse_call_expression, parse_index_expression,
        parse_quote_expression, parse_unquote_expression, parse_csl_element,
        parse_comma_separated_list, parse_csl_loop, parse_expression_list,
        parse_function_parameters, PRes.consume, PRes.consumeStrict]
  | succ f ih =>
    constructor
    case stmt =>
      intro l
      simp only [parse_statement]
      split
      · exact ih.letS l
      · exact ih.ret l
      · exact ih.exprStmt l
      · simp [PRes.consume]
    case letS =>
      intro l
      simp only [parse_let_statement]
      split
      · simp [PRes.consume]
      · split
        · simp only [PRes.consume]
          exact tail_len l
        · split
          · simp only [PRes.consume]
            exact tail_len l
          · next l2 hl2 =>
            obtain ⟨hl2e, hpk⟩ := expect_peek_ok hl2
            subst hl2e
            split
            · simp [PRes.consume]
            · next m l4 he =>
              have h4 := consume_err (ih.expr .lowest _) he
              simp only [PRes.consume]
              have t1 := tail_len l
              have t2 := tail_len l.tail
              have t3 := tail_len l.tail.tail
              omega
            · next e l4 he =>
              have h4 := consume_ok (ih.expr .lowest _) he
              simp only [PRes.consume]
              have t1 := tail_len l
              have t2 := tail_len l.tail
              have t3 := tail_len l.tail.tail
              have t4 := tail_len l4
              split <;> omega
    case ret =>
      intro l
      simp only [parse_return_statement]
      split
      · simp [PRes.consume]
      · split
        · simp [PRes.consume]
        · next m l2 he =>
          have h2 := consume_err (ih.expr .lowest _) he
          simp only [PRes.consume]
          have t1 := tail_len l
          omega
        · next e l2 he =>
          have h2 := consume_ok (ih.expr .lowest _) he
          simp only [PRes.consume]
          have t1 := tail_len l
          have t2 := tail_len l2
          split <;> omega
    case exprStmt =>
      intro l
      simp only [parse_expression_statement]
      split
      · simp [PRes.consume]
      · next m l1 he =>
        have h1 := consume_err (ih.expr .lowest _) he
        simpa [PRes.consume] using h1
      · next e l1 he =>
        have h1 := consume_ok (ih.expr .lowest _) he
        simp only [PRes.consume]
        have t1 := tail_len l1
        split <;> omega
    case block =>
      intro l
      simp only [parse_block_statement]
      split
      · simp [PRes.consume]
      · have t0 := tail_len l
        split
        · simp [PRes.consume]
        · next m l1 hb =>
          have h1 := consume_err (ih.blockLoop l.tail) hb
          simp only [PRes.consume]
          omega
        · next ss l1 hb =>
          have h1 := consume_ok (ih.blockLoop l.tail) hb
          simp only [PRes.consume]
          omega
    case blockLoop =>
      intro l
      simp only [parse_block_loop]
      split
      · simp [PRes.consume]
      · simp [PRes.consume]
      · split
        · simp [PRes.consume]
        · next m l1 hs =>
          have h1 := consume_err (ih.stmt l) hs
          simpa [PRes.consume] using h1
        · next s l1 hs =>
          have h1 := consume_ok (ih.stmt l) hs
          have t1 := tail_len l1
          split
          · simp [PRes.consume]
          · next m l2 hb =>
            have h2 := consume_err (ih.blockLoop l1.tail) hb
            simp only [PRes.consume]
            omega
          · next ss l2 hb =>
            have h2 := consume_ok (ih.blockLoop l1.tail) hb
            simp only [PRes.consume]
            omega
    case expr =>
      intro prec l
      simp only [parse_expression]
      split
      · simp [PRes.consume]
      · next m l1 hp =>
        have h1 := consume_err (ih.prefixDisp l) hp
        simpa [PRes.consume] using h1
      · next left l1 hp =>
        have h1 := consume_ok (ih.prefixDisp l) hp
        exact consume_mono (ih.infixLoop prec left l1) h1
    case infixLoop =>
      intro prec left l
      simp only [parse_infix_loop]
      split
      · simp [PRes.consume]
      · next t hpk =>
        split
        · simp [PRes.consume]
        · split
          · have hd := ih.infixDisp left l
            split
            · simp [PRes.consume]
            · next m l1 hid =>
              rw [hid] at hd
              simpa [PRes.consume, PRes.consumeStrict] using hd
            · next e parsed l1 hid =>
              rw [hid] at hd
              cases parsed with
              | false =>
                simp only [PRes.consumeStrict] at hd
                simpa [PRes.consume] using hd
              | true =>
                simp only [PRes.consumeStrict] at hd
                simp only [if_true]
                exact consume_mono (ih.infixLoop prec e l1) (le_of_lt hd)
          · simp [PRes.consume]
    case prefixDisp =>
      intro l
      simp only [parse_prefix_dispatch]
      split <;>
        first
          | (simp only [liftE]
             split <;> simp [PRes.consume])
          | exact ih.arrayE l
          | exact ih.hashE l
          | exact ih.prefixOp l
          | exact ih.grouped l
          | exact ih.ifE l
          | exact ih.funcE l
          | exact ih.quoteE l
          | exact ih.unquoteE l
          | exact ih.macroE l
          | simp [PRes.consume]
    case infixDisp =>
      intro left l
      cases l with
      | nil => simp [parse_infix_dispatch, PRes.consumeStrict]
      | cons a as =>
        cases as with
        | nil => simp [parse_infix_dispatch, PRes.consumeStrict]
        | cons b bs =>
          cases b <;>
            simp only [parse_infix_dispatch, List.tail_cons, List.head?_cons] <;>
            first
              | exact consume_wrap_true (ih.infixOp left _) (by simp)
              | exact consume_wrap_true (ih.callE left _) (by simp)
              | exact consume_wrap_true (ih.indexE left _) (by simp)
              | simp [PRes.consumeStrict]
    case arrayE =>
      intro l
      simp only [parse_array_expression]
      split
      · simp [PRes.consume]
      · split
        · simp [PRes.consume]
        · next m l1 he =>
          have h1 := consume_err (ih.exprList .rbracket l) he
          simpa [PRes.consume] using h1
        · next es l1 he =>
          have h1 := consume_ok (ih.exprList .rbracket l) he
          simpa [PRes.consume] using h1
    case hashE =>
      intro l
      simp only [parse_hash_expression]
      split
      · simp [PRes.consume]
      · split
        · simp [PRes.consume]
        · next m l1 hh =>
          have h1 := consume_err (ih.hashLoop [] l) hh
          simpa [PRes.consume] using h1
        · next map l1 hh =>
          have h1 := consume_ok (ih.hashLoop [] l) hh
          split
          · simp only [PRes.consume]
            omega
          · next l2 hp =>
            obtain ⟨hl2, _⟩ := expect_peek_ok hp
            subst hl2
            simp only [PRes.consume]
            have t1 := tail_len l1
            omega
    case hashLoop =>
      intro map l
      simp only [parse_hash_loop]
      split
      · simp [PRes.consume]
      · simp [PRes.consume]
      · have t0 := tail_len l
        split
        · simp [PRes.consume]
        · next m l1 hk =>
          have h1 := consume_err (ih.expr .lowest _) hk
          simp only [PRes.consume]
          omega
        · next key l1 hk =>
          have h1 := consume_ok (ih.expr .lowest _) hk
          split
          · simp only [PRes.consume]
            omega
          · next l2 hcol =>
            obtain ⟨hl2, _⟩ := expect_peek_ok hcol
            subst hl2
            have t1 := tail_len l1
            have t2 := tail_len l1.tail
            split
            · simp [PRes.consume]
            · next m l3 hv =>
              have h3 := consume_err (ih.expr .lowest _) hv
              simp only [PRes.consume]
              omega
            · next value l3 hv =>
              have h3 := consume_ok (ih.expr .lowest _) hv
              have t3 := tail_len l3
              split
              · exact consume_mono (ih.hashLoop _ l3) (by omega)
              · exact consume_mono (ih.hashLoop _ l3) (by omega)
              · split
                · simp only [PRes.consume]
                  omega
                · next l4 hcm =>
                  obtain ⟨hl4, _⟩ := expect_peek_ok hcm
                  subst hl4
                  have t4 := tail_len l3
                  exact consume_mono (ih.hashLoop _ l3.tail) (by omega)
    case prefixOp =>
      intro l
      simp only [parse_prefix_op_expression]
      split
      · have t0 := tail_len l
        split
        · split
          · simp [PRes.consume]
          · next m l1 he =>
            have h1 := consume_err (ih.expr .prefixP _) he
            simp only [PRes.consume]
            omega
          · next r l1 he =>
            have h1 := consume_ok (ih.expr .prefixP _) he
            simp only [PRes.consume]
            omega
        · simp [PRes.consume]
      · simp [PRes.consume]
    case infixOp =>
      intro left l
      simp only [parse_infix_op_expression]
      split
      · next tok htok =>
        have t0 := tail_len l
        split
        · split
          · simp [PRes.consume]
          · next m l1 he =>
            have h1 := consume_err (ih.expr (token_precedence (some tok)) _) he
            simp only [PRes.consume]
            omega
          · next r l1 he =>
            have h1 := consume_ok (ih.expr (token_precedence (some tok)) _) he
            simp only [PRes.consume]
            omega
        · simp [PRes.consume]
      · simp [PRes.consume]
    case grouped =>
      intro l
      simp only [parse_grouped_expression]
      split
      · simp [PRes.consume]
      · have t0 := tail_len l
        split
        · simp [PRes.consume]
        · next m l1 he =>
          have h1 := consume_err (ih.expr .lowest _) he
          simp only [PRes.consume]
          omega
        · next e l1 he =>
          have h1 := consume_ok (ih.expr .lowest _) he
          split
          · simp only [PRes.consume]
            omega
          · next l2 hp =>
            obtain ⟨hl2, _⟩ := expect_peek_ok hp
            subst hl2
            simp only [PRes.consume]
            have t1 := tail_len l1
            omega
    case ifE =>
      intro l
      simp only [parse_if_expression]
      split
      · simp [PRes.consume]
      · split
        · simp [PRes.consume]
        · next l1 hp1 =>
          obtain ⟨hl1, _⟩ := expect_peek_ok hp1
          subst hl1
          have t0 := tail_len l
          have t1 := tail_len l.tail
          split
          · simp [PRes.consume]
          · next m l2 he =>
            have h2 := consume_err (ih.expr .lowest _) he
            simp only [PRes.consume]
            omega
          · next cond l2 he =>
            have h2 := consume_ok (ih.expr .lowest _) he
            split
            · simp only [PRes.consume]
              omega
            · next l3 hp2 =>
              obtain ⟨hl3, _⟩ := expect_peek_ok hp2
              subst hl3
              have t2 := tail_len l2
              split
              · simp only [PRes.consume]
                omega
              · next l4 hp3 =>
                obtain ⟨hl4, _⟩ := expect_peek_ok hp3
                subst hl4
                have t3 := tail_len l2.tail
                split
                · simp [PRes.consume]
                · next m l5 hb =>
                  have h5 := consume_err (ih.block _) hb
                  simp only [PRes.consume]
                  omega
                · next cons l5 hb =>
                  have h5 := consume_ok (ih.block _) hb
                  have t5 := tail_len l5
                  split
                  · split
                    · simp only [PRes.consume]
                      omega
                    · next l7 hp4 =>
                      obtain ⟨hl7, _⟩ := expect_peek_ok hp4
                      subst hl7
                      have t7 := tail_len l5.tail
                      split
                      · simp [PRes.consume]
                      · next m l8 hb2 =>
                        have h8 := consume_err (ih.block _) hb2
                        simp only [PRes.consume]
                        omega
                      · next alt l8 hb2 =>
                        have h8 := consume_ok (ih.block _) hb2
                        simp only [PRes.consume]
                        omega
                  · simp only [PRes.consume]
                    omega
    case funcE =>
      intro l
      simp only [parse_function_expression]
      split
      · simp [PRes.consume]
      · split
        · simp [PRes.consume]
        · next l1 hp1 =>
          obtain ⟨hl1, _⟩ := expect_peek_ok hp1
          subst hl1
          have t0 := tail_len l
          split
          · simp [PRes.consume]
          · next m l2 hpar =>
            have h2 := consume_err (ih.funcParams _) hpar
            simp only [PRes.consume]
            omega
          · next params l2 hpar =>
            have h2 := consume_ok (ih.funcParams _) hpar
            split
            · simp only [PRes.consume]
              omega
            · next l3 hp2 =>
              obtain ⟨hl3, _⟩ := expect_peek_ok hp2
              subst hl3
              have t2 := tail_len l2
              split
              · simp [PRes.consume]
              · next m l4 hb =>
                have h4 := consume_err (ih.block _) hb
                simp only [PRes.consume]
                omega
              · next body l4 hb =>
                have h4 := consume_ok (ih.block _) hb
                simp only [PRes.consume]
                omega
    case macroE =>
      intro l
      simp only [parse_macro_expression]
      split
      · simp [PRes.consume]
      · split
        · simp [PRes.consume]
        · next l1 hp1 =>
          obtain ⟨hl1, _⟩ := expect_peek_ok hp1
          subst hl1
          have t0 := tail_len l
          split
          · simp [PRes.consume]
          · next m l2 hpar =>
            have h2 := consume_err (ih.funcParams _) hpar
            simp only [PRes.consume]
            omega
          · next params l2 hpar =>
            have h2 := consume_ok (ih.funcParams _) hpar
            split
            · simp only [PRes.consume]
              omega
            · next l3 hp2 =>
              obtain ⟨hl3, _⟩ := expect_peek_ok hp2
              subst hl3
              have t2 := tail_len l2
              split
              · simp [PRes.consume]
              · next m l4 hb =>
                have h4 := consume_err (ih.block _) hb
                simp only [PRes.consume]
                omega
              · next body l4 hb =>
                have h4 := consume_ok (ih.block _) hb
                simp only [PRes.consume]
                omega
    case callE =>
      intro left l
      simp only [parse_call_expression]
      split
      · split
        · simp [PRes.consume]
        · next m l1 he =>
          have h1 := consume_err (ih.exprList .rparen l) he
          simpa [PRes.consume] using h1
        · next args l1 he =>
          have h1 := consume_ok (ih.exprList .rparen l) he
          simpa [PRes.consume] using h1
      · simp [PRes.consume]
    case indexE =>
      intro left l
      simp only [parse_index_expression]
      split
      · simp [PRes.consume]
      · have t0 := tail_len l
        split
        · simp [PRes.consume]
        · next m l1 he =>
          have h1 := consume_err (ih.expr .lowest _) he
          simp only [PRes.consume]
          omega
        · next idx l1 he =>
          have h1 := consume_ok (ih.expr .lowest _) he
          split
          · simp only [PRes.consume]
            omega
          · next l2 hp =>
            obtain ⟨hl2, _⟩ := expect_peek_ok hp
            subst hl2
            simp only [PRes.consume]
            have t1 := tail_len l1
            omega
    case quoteE =>
      intro l
      simp only [parse_quote_expression]
      split
      · simp [PRes.consume]
      · split
        · simp [PRes.consume]
        · next l1 hp1 =>
          obtain ⟨hl1, _⟩ := expect_peek_ok hp1
          subst hl1
          have t0 := tail_len l
          have t1 := tail_len l.tail
          split
          · simp [PRes.consume]
          · next m l2 he =>
            have h2 := consume_err (ih.expr .lowest _) he
            simp only [PRes.consume]
            omega
          · next e l2 he =>
            have h2 := consume_ok (ih.expr .lowest _) he
            split
            · simp only [PRes.consume]
              omega
            · next l3 hp2 =>
              obtain ⟨hl3, _⟩ := expect_peek_ok hp2
              subst hl3
              simp only [PRes.consume]
              have t2 := tail_len l2
              omega
    case unquoteE =>
      intro l
      simp only [parse_unquote_expression]
      split
      · simp [PRes.consume]
      · split
        · simp [PRes.consume]
        · next l1 hp1 =>
          obtain ⟨hl1, _⟩ := expect_peek_ok hp1
          subst hl1
          have t0 := tail_len l
          have t1 := tail_len l.tail
          split
          · simp [PRes.consume]
          · next m l2 he =>
            have h2 := consume_err (ih.expr .lowest _) he
            simp only [PRes.consume]
            omega
          · next e l2 he =>
            have h2 := consume_ok (ih.expr .lowest _) he
            split
            · simp only [PRes.consume]
              omega
            · next l3 hp2 =>
              obtain ⟨hl3, _⟩ := expect_peek_ok hp2
              subst hl3
              simp only [PRes.consume]
              have t2 := tail_len l2
              omega
    case cslElem =>
      intro k l
      cases k with
      | expr =>
        simp only [parse_csl_element]
        exact ih.expr .lowest l
      | ident =>
        simp only [parse_csl_element, liftE]
        split <;> simp [PRes.consume]
    case csl =>
      intro k endTok l
      simp only [parse_comma_separated_list]
      split
      · simp only [PRes.consume]
        exact tail_len l
      · have t0 := tail_len l
        split
        · simp [PRes.consume]
        · next m l1 he =>
          have h1 := consume_err (ih.cslElem k _) he
          simp only [PRes.consume]
          omega
        · next a l1 he =>
          have h1 := consume_ok (ih.cslElem k _) he
          split
          · simp [PRes.consume]
          · next m l2 hlp =>
            have h2 := consume_err (ih.cslLoop k endTok l1) hlp
            simp only [PRes.consume]
            omega
          · next rest l2 hlp =>
            have h2 := consume_ok (ih.cslLoop k endTok l1) hlp
            simp only [PRes.consume]
            omega
    case cslLoop =>
      intro k endTok l
      simp only [parse_csl_loop]
      split
      · have t0 := tail_len l
        have t1 := tail_len l.tail
        split
        · simp [PRes.consume]
        · next m l1 he =>
          have h1 := consume_err (ih.cslElem k _) he
          simp only [PRes.consume]
          omega
        · next a l1 he =>
          have h1 := consume_ok (ih.cslElem k _) he
          split
          · simp [PRes.consume]
          · next m l2 hlp =>
            have h2 := consume_err (ih.cslLoop k endTok l1) hlp
            simp only [PRes.consume]
            omega
          · next rest l2 hlp =>
            have h2 := consume_ok (ih.cslLoop k endTok l1) hlp
            simp only [PRes.consume]
            omega
      · split
        · simp [PRes.consume]
        · next l1 hp =>
          obtain ⟨hl1, _⟩ := expect_peek_ok hp
          subst hl1
          simp only [PRes.consume]
          exact tail_len l
    case exprList =>
      intro endTok l
      simp only [parse_expression_list]
      exact ih.csl .expr endTok l
    case funcParams =>
      intro l
      simp only [parse_function_parameters]
      split
      · simp [PRes.consume]
      · exact ih.csl .ident .rparen l

/-! ## Fuel sufficiency: the parser never runs out of fuel at the bound
supplied by `parse` -/

/-- Discharges a `needFuel` bound by providing the empty-state and
non-empty-state inequalities. -/
theorem needFuel_le {r0 r1 f : Nat} (l : List Token)
    (h0 : r0 + 1 ≤ f) (h1 : l ≠ [] → 9 * l.length + r1 + 1 ≤ f) :
    needFuel r0 r1 l ≤ f := by
  cases l with
  | nil => simpa [needFuel] using h0
  | cons a as => simpa [needFuel] using h1 (by simp)

/-- A tail is at least one shorter than any cons-bound. -/
theorem tail_len_le_of_le {l1 : List Token} {n : Nat}
    (h : l1.length ≤ n + 1) : l1.tail.length ≤ n := by
  cases l1 with
  | nil => simp
  | cons a as =>
    simp only [List.tail_cons]
    simp only [List.length_cons] at h
    omega

/-- Wrapping an infix sub-parse preserves not running out of fuel. -/
theorem wrapInfix_ne_out {r : PRes Expression} (h : r ≠ .out) :
    wrapInfix r ≠ .out := by
  cases r with
  | ok a rest => simp [wrapInfix]
  | err m rest => simp [wrapInfix]
  | out => exact absurd rfl h

/-- With `needFuel` fuel, no parser function runs out, at every fuel
level. -/
theorem suff_all : ∀ f, SuffAll f := by
  intro f
  induction f with
  | zero =>
    refine ⟨?_, ?_, ?_, ?_, ?_, ?_, ?_, ?_, ?_, ?_, ?_, ?_, ?_, ?_, ?_, ?_,
      ?_, ?_, ?_, ?_, ?_, ?_, ?_, ?_, ?_, ?_, ?_, ?_⟩ <;>
      intros <;>
      (next h => (cases ‹List Token› <;> simp [needFuel] at h))
  | succ f ih =>
    constructor
    case stmt =>
      intro l h
      cases l with
      | nil => simp [parse_statement]
      | cons a as =>
        simp only [needFuel, List.length_cons] at h
        simp only [parse_statement]
        split
        · exact ih.letS _ (by simp only [needFuel, List.length_cons]; omega)
        · exact ih.ret _ (by simp only [needFuel, List.length_cons]; omega)
        · exact ih.exprStmt _ (by simp only [needFuel, List.length_cons]; omega)
        · nofun
    case letS =>
      intro l h
      cases l with
      | nil => simp [parse_let_statement, expect_current_token]
      | cons a as =>
        simp only [needFuel, List.length_cons] at h
        simp only [parse_let_statement, List.tail_cons]
        split
        · nofun
        · split
          · nofun
          · split
            · nofun
            · next l2 hl2 =>
              obtain ⟨hl2e, _⟩ := expect_peek_ok hl2
              subst hl2e
              have t1 := tail_len as
              have t2 := tail_len as.tail
              split
              · next hout =>
                exact absurd hout (ih.expr .lowest _
                  (needFuel_le _ (by omega) (fun _ => by omega)))
              · nofun
              · nofun
    case ret =>
      intro l h
      cases l with
      | nil => simp [parse_return_statement, expect_current_token]
      | cons a as =>
        simp only [needFuel, List.length_cons] at h
        simp only [parse_return_statement, List.tail_cons]
        split
        · nofun
        · split
          · next hout =>
            exact absurd hout (ih.expr .lowest _
              (needFuel_le _ (by omega) (fun _ => by omega)))
          · nofun
          · nofun
    case exprStmt =>
      intro l h
      cases l with
      | nil =>
        simp only [needFuel] at h
        simp only [parse_expression_statement]
        split
        · next hout =>
          exact absurd hout (ih.expr .lowest [] (by simp [needFuel]; omega))
        · nofun
        · nofun
      | cons a as =>
        simp only [needFuel, List.length_cons] at h
        simp only [parse_expression_statement]
        split
        · next hout =>
          exact absurd hout (ih.expr .lowest _
            (by simp only [needFuel, List.length_cons]; omega))
        · nofun
        · nofun
    case block =>
      intro l h
      cases l with
      | nil => simp [parse_block_statement, expect_current_token]
      | cons a as =>
        simp only [needFuel, List.length_cons] at h
        simp only [parse_block_statement, List.tail_cons]
        split
        · nofun
        · split
          · next hout =>
            exact absurd hout (ih.blockLoop as
              (needFuel_le _ (by omega) (fun _ => by omega)))
          · nofun
          · nofun
    case blockLoop =>
      intro l h
      cases l with
      | nil => simp [parse_block_loop]
      | cons a as =>
        simp only [needFuel, List.length_cons] at h
        simp only [parse_block_loop]
        split
        · nofun
        · nofun
        · split
          · next hout =>
            exact absurd hout (ih.stmt _
              (by simp only [needFuel, List.length_cons]; omega))
          · nofun
          · next s l1 hs =>
            have hc := consume_ok ((consume_all f).stmt _) hs
            simp only [List.length_cons] at hc
            have ht := tail_len_le_of_le hc
            split
            · next hout2 =>
              exact absurd hout2 (ih.blockLoop l1.tail
                (needFuel_le _ (by omega) (fun _ => by omega)))
            · nofun
            · nofun
    case expr =>
      intro prec l h
      cases l with
      | nil =>
        simp only [needFuel] at h
        simp only [parse_expression]
        split
        · next hout =>
          exact absurd hout (ih.prefixDisp [] (by simp [needFuel]; omega))
        · nofun
        · next left l1 hp =>
          have hc := consume_ok ((consume_all f).prefixDisp []) hp
          simp only [List.length_nil, Nat.le_zero] at hc
          exact ih.infixLoop prec left l1
            (needFuel_le _ (by omega)
              (fun hne => absurd (List.length_eq_zero.mp hc) hne))
      | cons a as =>
        simp only [needFuel, List.length_cons] at h
        simp only [parse_expression]
        split
        · next hout =>
          exact absurd hout (ih.prefixDisp _
            (by simp only [needFuel, List.length_cons]; omega))
        · nofun
        · next left l1 hp =>
          have hc := consume_ok ((consume_all f).prefixDisp _) hp
          simp only [List.length_cons] at hc
          exact ih.infixLoop prec left l1
            (needFuel_le _ (by omega) (fun _ => by omega))
    case infixLoop =>
      intro prec left l h
      cases l with
      | nil => simp [parse_infix_loop]
      | cons a as =>
        simp only [needFuel, List.length_cons] at h
        simp only [parse_infix_loop, List.tail_cons]
        split
        · nofun
        · next t hpk =>
          split
          · nofun
          · split
            · split
              · next hout =>
                exact absurd hout (ih.infixDisp _ _
                  (by simp only [needFuel, List.length_cons]; omega))
              · nofun
              · next e parsed l1 hid =>
                have hd := (consume_all f).infixDisp left (a :: as)
                rw [hid] at hd
                cases parsed with
                | false => simp
                | true =>
                  simp only [if_true]
                  simp only [PRes.consumeStrict, List.length_cons] at hd
                  exact ih.infixLoop prec e l1
                    (needFuel_le _ (by omega) (fun _ => by omega))
            · nofun
    case prefixDisp =>
      intro l h
      cases l with
      | nil => simp [parse_prefix_dispatch]
      | cons a as =>
        simp only [needFuel, List.length_cons] at h
        simp only [parse_prefix_dispatch]
        split
        · simp only [liftE]
          split <;> nofun
        · simp only [liftE]
          split <;> nofun
        · simp only [liftE]
          split <;> nofun
        · simp only [liftE]
          split <;> nofun
        · simp only [liftE]
          split <;> nofun
        · exact ih.arrayE _ (by simp only [needFuel, List.length_cons]; omega)
        · exact ih.hashE _ (by simp only [needFuel, List.length_cons]; omega)
        · exact ih.prefixOp _ (by simp only [needFuel, List.length_cons]; omega)
        · exact ih.prefixOp _ (by simp only [needFuel, List.length_cons]; omega)
        · exact ih.grouped _ (by simp only [needFuel, List.length_cons]; omega)
        · exact ih.ifE _ (by simp only [needFuel, List.length_cons]; omega)
        · exact ih.funcE _ (by simp only [needFuel, List.length_cons]; omega)
        · exact ih.quoteE _ (by simp only [needFuel, List.length_cons]; omega)
        · exact ih.unquoteE _ (by simp only [needFuel, List.length_cons]; omega)
        · exact ih.macroE _ (by simp only [needFuel, List.length_cons]; omega)
        · nofun
    case infixDisp =>
      intro left l h
      cases l with
      | nil => simp [parse_infix_dispatch]
      | cons a as =>
        cases as with
        | nil => simp [parse_infix_dispatch]
        | cons b bs =>
          simp only [needFuel, List.length_cons] at h
          cases b <;>
            simp only [parse_infix_dispatch, List.tail_cons, List.head?_cons]
          all_goals
            try
              (apply wrapInfix_ne_out
               first
                 | exact ih.infixOp _ _
                     (by simp only [needFuel, List.length_cons]; omega)
                 | exact ih.callE _ _
                     (by simp only [needFuel, List.length_cons]; omega)
                 | exact ih.indexE _ _
                     (by simp only [needFuel, List.length_cons]; omega))
          all_goals simp
    case arrayE =>
      intro l h
      cases l with
      | nil => simp [parse_array_expression, expect_current_token]
      | cons a as =>
        simp only [needFuel, List.length_cons] at h
        simp only [parse_array_expression]
        split
        · nofun
        · split
          · next hout =>
            exact absurd hout (ih.exprList _ _
              (by simp only [needFuel, List.length_cons]; omega))
          · nofun
          · nofun
    case hashE =>
      intro l h
      cases l with
      | nil => simp [parse_hash_expression, expect_current_token]
      | cons a as =>
        simp only [needFuel, List.length_cons] at h
        simp only [parse_hash_expression]
        split
        · nofun
        · split
          · next hout =>
            exact absurd hout (ih.hashLoop [] _
              (by simp only [needFuel, List.length_cons]; omega))
          · nofun
          · split
            · nofun
            · nofun
    case hashLoop =>
      intro map l h
      cases l with
      | nil => simp [parse_hash_loop]
      | cons a as =>
        cases as with
        | nil => simp [parse_hash_loop]
        | cons b bs =>
          simp only [needFuel, List.length_cons] at h
          simp only [parse_hash_loop, List.tail_cons, List.head?_cons]
          split
          · nofun
          · nofun
          · split
            · next hout =>
              exact absurd hout (ih.expr .lowest _
                (by simp only [needFuel, List.length_cons]; omega))
            · nofun
            · next key l1 hk =>
              have hc1 := consume_ok ((consume_all f).expr .lowest _) hk
              simp only [List.length_cons] at hc1
              split
              · nofun
              · next l2 hcol =>
                obtain ⟨hl2e, _⟩ := expect_peek_ok hcol
                subst hl2e
                have t1 := tail_len l1
                have t2 := tail_len l1.tail
                split
                · next hout =>
                  exact absurd hout (ih.expr .lowest _
                    (needFuel_le _ (by omega) (fun _ => by omega)))
                · nofun
                · next value l3 hv =>
                  have hc3 := consume_ok ((consume_all f).expr .lowest _) hv
                  split
                  · exact ih.hashLoop _ l3
                      (needFuel_le _ (by omega) (fun _ => by omega))
                  · exact ih.hashLoop _ l3
                      (needFuel_le _ (by omega) (fun _ => by omega))
                  · split
                    · nofun
                    · next l4 hcm =>
                      obtain ⟨hl4e, _⟩ := expect_peek_ok hcm
                      subst hl4e
                      have t3 := tail_len l3
                      exact ih.hashLoop _ l3.tail
                        (needFuel_le _ (by omega) (fun _ => by omega))
    case prefixOp =>
      intro l h
      cases l with
      | nil => simp [parse_prefix_op_expression]
      | cons a as =>
        simp only [needFuel, List.length_cons] at h
        simp only [parse_prefix_op_expression, List.head?_cons, List.tail_cons]
        split
        · split
          · next hout =>
            exact absurd hout (ih.expr .prefixP _
              (needFuel_le _ (by omega) (fun _ => by omega)))
          · nofun
          · nofun
        · nofun
    case infixOp =>
      intro left l h
      cases l with
      | nil => simp [parse_infix_op_expression]
      | cons a as =>
        simp only [needFuel, List.length_cons] at h
        simp only [parse_infix_op_expression, List.head?_cons, List.tail_cons]
        split
        · split
          · next hout =>
            exact absurd hout (ih.expr _ _
              (needFuel_le _ (by omega) (fun _ => by omega)))
          · nofun
          · nofun
        · nofun
    case grouped =>
      intro l h
      cases l with
      | nil => simp [parse_grouped_expression, expect_current_token]
      | cons a as =>
        simp only [needFuel, List.length_cons] at h
        simp only [parse_grouped_expression, List.tail_cons]
        split
        · nofun
        · split
          · next hout =>
            exact absurd hout (ih.expr .lowest _
              (needFuel_le _ (by omega) (fun _ => by omega)))
          · nofun
          · split
            · nofun
            · nofun
    case ifE =>
      intro l h
      cases l with
      | nil => simp [parse_if_expression, expect_current_token]
      | cons a as =>
        simp only [needFuel, List.length_cons] at h
        simp only [parse_if_expression, List.tail_cons]
        split
        · nofun
        · split
          · nofun
          · next l1 hp1 =>
            obtain ⟨hl1e, _⟩ := expect_peek_ok hp1
            subst hl1e
            have t1 := tail_len l1
            split
            · next hout =>
              exact absurd hout (ih.expr .lowest _
                (needFuel_le _ (by omega) (fun _ => by omega)))
            · nofun
            · next cond l2 he =>
              have hc2 := consume_ok ((consume_all f).expr .lowest _) he
              split
              · nofun
              · next l3 hp2 =>
                obtain ⟨hl3e, _⟩ := expect_peek_ok hp2
                subst hl3e
                have t2 := tail_len l2
                split
                · nofun
                · next l4 hp3 =>
                  obtain ⟨hl4e, _⟩ := expect_peek_ok hp3
                  subst hl4e
                  have t3 := tail_len l2.tail
                  split
                  · next hout =>
                    exact absurd hout (ih.block _
                      (needFuel_le _ (by omega) (fun _ => by omega)))
                  · nofun
                  · next cons5 l5 hb =>
                    have hc5 := consume_ok ((consume_all f).block _) hb
                    have t5 := tail_len l5
                    split
                    · split
                      · nofun
                      · next l7 hp4 =>
                        obtain ⟨hl7e, _⟩ := expect_peek_ok hp4
                        subst hl7e
                        have t7 := tail_len l5.tail
                        split
                        · next hout =>
                          exact absurd hout (ih.block _
                            (needFuel_le _ (by omega) (fun _ => by omega)))
                        · nofun
                        · nofun
                    · nofun
    case funcE =>
      intro l h
      cases l with
      | nil => simp [parse_function_expression, expect_current_token]
      | cons a as =>
        simp only [needFuel, List.length_cons] at h
        simp only [parse_function_expression, List.tail_cons]
        split
        · nofun
        · split
          · nofun
          · next l1 hp1 =>
            obtain ⟨hl1e, _⟩ := expect_peek_ok hp1
            subst hl1e
            split
            · next hout =>
              exact absurd hout (ih.funcParams _
                (needFuel_le _ (by omega) (fun _ => by omega)))
            · nofun
            · next params l2 hpar =>
              have hc2 := consume_ok ((consume_all f).funcParams _) hpar
              split
              · nofun
              · next l3 hp2 =>
                obtain ⟨hl3e, _⟩ := expect_peek_ok hp2
                subst hl3e
                have t2 := tail_len l2
                split
                · next hout =>
                  exact absurd hout (ih.block _
                    (needFuel_le _ (by omega) (fun _ => by omega)))
                · nofun
                · nofun
    case macroE =>
      intro l h
      cases l with
      | nil => simp [parse_macro_expression, expect_current_token]
      | cons a as =>
        simp only [needFuel, List.length_cons] at h
        simp only [parse_macro_expression, List.tail_cons]
        split
        · nofun
        · split
          · nofun
          · next l1 hp1 =>
            obtain ⟨hl1e, _⟩ := expect_peek_ok hp1
            subst hl1e
            split
            · next hout =>
              exact absurd hout (ih.funcParams _
                (needFuel_le _ (by omega) (fun _ => by omega)))
            · nofun
            · next params l2 hpar =>
              have hc2 := consume_ok ((consume_all f).funcParams _) hpar
              split
              · nofun
              · next l3 hp2 =>
                obtain ⟨hl3e, _⟩ := expect_peek_ok hp2
                subst hl3e
                have t2 := tail_len l2
                split
                · next hout =>
                  exact absurd hout (ih.block _
                    (needFuel_le _ (by omega) (fun _ => by omega)))
                · nofun
                · nofun
    case callE =>
      intro left l h
      cases l with
      | nil =>
        simp only [needFuel] at h
        simp only [parse_call_expression]
        split
        · split
          · next hout =>
            exact absurd hout (ih.exprList _ [] (by simp [needFuel]; omega))
          · nofun
          · nofun
        · nofun
      | cons a as =>
        simp only [needFuel, List.length_cons] at h
        simp only [parse_call_expression]
        split
        · split
          · next hout =>
            exact absurd hout (ih.exprList _ _
              (by simp only [needFuel, List.length_cons]; omega))
          · nofun
          · nofun
        · nofun
    case indexE =>
      intro left l h
      cases l with
      | nil => simp [parse_index_expression, expect_current_token]
      | cons a as =>
        simp only [needFuel, List.length_cons] at h
        simp only [parse_index_expression, List.tail_cons]
        split
        · nofun
        · split
          · next hout =>
            exact absurd hout (ih.expr .lowest _
              (needFuel_le _ (by omega) (fun _ => by omega)))
          · nofun
          · split
            · nofun
            · nofun
    case quoteE =>
      intro l h
      cases l with
      | nil => simp [parse_quote_expression, expect_current_token]
      | cons a as =>
        simp only [needFuel, List.length_cons] at h
        simp only [parse_quote_expression, List.tail_cons]
        split
        · nofun
        · split
          · nofun
          · next l1 hp1 =>
            obtain ⟨hl1e, _⟩ := expect_peek_ok hp1
            subst hl1e
            have t1 := tail_len l1
            split
            · next hout =>
              exact absurd hout (ih.expr .lowest _
                (needFuel_le _ (by omega) (fun _ => by omega)))
            · nofun
            · split
              · nofun
              · nofun
    case unquoteE =>
      intro l h
      cases l with
      | nil => simp [parse_unquote_expression, expect_current_token]
      | cons a as =>
        simp only [needFuel, List.length_cons] at h
        simp only [parse_unquote_expression, List.tail_cons]
        split
        · nofun
        · split
          · nofun
          · next l1 hp1 =>
            obtain ⟨hl1e, _⟩ := expect_peek_ok hp1
            subst hl1e
            have t1 := tail_len l1
            split
            · next hout =>
              exact absurd hout (ih.expr .lowest _
                (needFuel_le _ (by omega) (fun _ => by omega)))
            · nofun
            · split
              · nofun
              · nofun
    case cslElem =>
      intro k l h
      cases k with
      | expr =>
        cases l with
        | nil =>
          simp only [needFuel] at h
          simp only [parse_csl_element]
          exact ih.expr .lowest [] (by simp [needFuel]; omega)
        | cons a as =>
          simp only [needFuel, List.length_cons] at h
          simp only [parse_csl_element]
          exact ih.expr .lowest _
            (by simp only [needFuel, List.length_cons]; omega)
      | ident =>
        simp only [parse_csl_element, liftE]
        split <;> nofun
    case csl =>
      intro k endTok l h
      cases l with
      | nil =>
        simp only [needFuel] at h
        simp only [parse_comma_separated_list, List.tail_nil, List.head?_nil]
        rw [if_neg (by simp)]
        split
        · next hout =>
          exact absurd hout (ih.cslElem k [] (by simp [needFuel]; omega))
        · nofun
        · next x l1 he =>
          have hc := consume_ok ((consume_all f).cslElem k _) he
          simp only [List.length_nil, Nat.le_zero] at hc
          split
          · next hout =>
            exact absurd hout (ih.cslLoop k endTok l1
              (needFuel_le _ (by omega)
                (fun hne => absurd (List.length_eq_zero.mp hc) hne)))
          · nofun
          · nofun
      | cons a as =>
        simp only [needFuel, List.length_cons] at h
        simp only [parse_comma_separated_list, List.tail_cons]
        split
        · nofun
        · split
          · next hout =>
            exact absurd hout (ih.cslElem k _
              (needFuel_le _ (by omega) (fun _ => by omega)))
          · nofun
          · next x l1 he =>
            have hc := consume_ok ((consume_all f).cslElem k _) he
            split
            · next hout =>
              exact absurd hout (ih.cslLoop k endTok l1
                (needFuel_le _ (by omega) (fun _ => by omega)))
            · nofun
            · nofun
    case cslLoop =>
      intro k endTok l h
      cases l with
      | nil => simp [parse_csl_loop, expect_peek_token_and_next]
      | cons a as =>
        simp only [needFuel, List.length_cons] at h
        simp only [parse_csl_loop, List.tail_cons]
        split
        · have t1 := tail_len as
          split
          · next hout =>
            exact absurd hout (ih.cslElem k _
              (needFuel_le _ (by omega) (fun _ => by omega)))
          · nofun
          · next x l1 he =>
            have hc := consume_ok ((consume_all f).cslElem k _) he
            split
            · next hout =>
              exact absurd hout (ih.cslLoop k endTok l1
                (needFuel_le _ (by omega) (fun _ => by omega)))
            · nofun
            · nofun
        · split
          · nofun
          · nofun
    case exprList =>
      intro endTok l h
      cases l with
      | nil =>
        simp only [needFuel] at h
        simp only [parse_expression_list]
        exact ih.csl .expr endTok [] (by simp [needFuel]; omega)
      | cons a as =>
        simp only [needFuel, List.length_cons] at h
        simp only [parse_expression_list]
        exact ih.csl .expr endTok _
          (by simp only [needFuel, List.length_cons]; omega)
    case funcParams =>
      intro l h
      cases l with
      | nil => simp [parse_function_parameters, expect_current_token]
      | cons a as =>
        simp only [needFuel, List.length_cons] at h
        simp only [parse_function_parameters]
        split
        · nofun
        · exact ih.csl .ident .rparen _
            (by simp only [needFuel, List.length_cons]; omega)

/-- The top-level statement loop never exhausts its fuel at the bound
`9·len + 8`. -/
theorem parse_program_loop_suff :
    ∀ f l, 9 * l.length + 8 ≤ f → parse_program_loop f l ≠ none := by
  intro f
  induction f with
  | zero =>
    intro l h
    omega
  | succ f ih =>
    intro l h
    cases l with
    | nil => simp [parse_program_loop]
    | cons t ts =>
      simp only [List.length_cons] at h
      simp only [parse_program_loop]
      split
      · next hout =>
        exact absurd hout ((suff_all f).stmt _
          (by simp only [needFuel, List.length_cons]; omega))
      · next s l1 hok =>
        have hc := consume_ok ((consume_all f).stmt _) hok
        simp only [List.length_cons] at hc
        have ht := tail_len_le_of_le hc
        split
        · next hnone => exact absurd hnone (ih l1.tail (by omega))
        · simp
      · next m l1 herr =>
        have hc := consume_err ((consume_all f).stmt _) herr
        simp only [List.length_cons] at hc
        have ht := tail_len_le_of_le hc
        split
        · next hnone => exact absurd hnone (ih l1.tail (by omega))
        · simp

/-- C7: the parser terminates on every finite token stream — every loop
consumes at least one token per iteration or exits at end of input
(`consume_all`), so the fuel bound supplied by `parse` is never exhausted
and `parse` is a total function of the token sequence. -/
theorem claim7_parser_terminates (l : List Token) :
    parse_program_loop (parse_fuel l) l ≠ none :=
  parse_program_loop_suff (parse_fuel l) l (by simp [parse_fuel])

end RMonkey
